import Mathlib

/-!
Verification development for the Ouderschapsplan conversational assistant
(`app.py`).  The development shallowly embeds the two specified components:
the Response Decoder (`coerce_json`, `_extract_balanced_json`,
`_normalize_quotes`, and the regex salvage / error construction inside
`send_to_gemini`) and the Conversation State Reconciler (`merge_updates`,
`compute_progress`, and the auto-fix validation block of the chat input
handler), together with the chat-turn state transition that ties them
together.  Text is modelled as `List Char` (Python `str` indexing and
slicing is by code point, as is `List Char`).
-/

namespace OPG

deriving instance DecidableEq for Except

/-- JSON values as produced by Python's `json.loads`.  Integer numbers are
interpreted; non-integer numeric tokens (floats, `NaN`, `Infinity`) are kept
as their raw lexeme in `numLit`, since the application never inspects them. -/
inductive JVal where
  | null : JVal
  | bool (b : Bool) : JVal
  | num (n : Int) : JVal
  | numLit (lex : List Char) : JVal
  | str (s : String) : JVal
  | arr (elems : List JVal) : JVal
  | obj (fields : List (String × JVal)) : JVal

/-- JSON structural whitespace (RFC 8259, as accepted by `json.loads`). -/
def isJsonWs (c : Char) : Bool :=
  c = ' ' || c = '\t' || c = '\n' || c = '\r'

def skipWs (s : List Char) : List Char := s.dropWhile isJsonWs

/-- Whitespace stripped by Python's `str.strip()` (ASCII part; the claims
never involve exotic Unicode whitespace). -/
def isPyWs (c : Char) : Bool :=
  c = ' ' || c = '\t' || c = '\n' || c = '\r' || c = '\x0b' || c = '\x0c'

/-- `str.strip()`. -/
def pyStrip (s : List Char) : List Char :=
  ((s.dropWhile isPyWs).reverse.dropWhile isPyWs).reverse

/-- `raw_text.lstrip('\ufeff')`. -/
def stripBOM (s : List Char) : List Char := s.dropWhile (· = '\uFEFF')

/-- One character of `_normalize_quotes`: typographic double quotes become
`"`, typographic single quotes become the ASCII apostrophe. -/
def normalizeChar (c : Char) : Char :=
  if c = '\u201C' || c = '\u201D' then '"'
  else if c = '\u2018' || c = '\u2019' then Char.ofNat 39
  else c

/-- `_normalize_quotes`: the four `str.replace` calls act independently on
distinct characters, hence a character-wise map. -/
def normalize_quotes (s : List Char) : List Char := s.map normalizeChar

/-- The scanning loop of `_extract_balanced_json`: depth starts at 0 and the
scan begins at the first `{`, so the first step raises it to 1; on `}` the
depth is decremented and the prefix is returned when it reaches 0. -/
def balancedScan (depth : Nat) (acc : List Char) : List Char → Option (List Char)
  | [] => none
  | c :: rest =>
    if c = '{' then balancedScan (depth + 1) (c :: acc) rest
    else if c = '}' then
      if depth - 1 = 0 then some (c :: acc).reverse
      else balancedScan (depth - 1) (c :: acc) rest
    else balancedScan depth (c :: acc) rest

/-- `_extract_balanced_json`: find the first `{` and return the substring up
to the point where the brace depth returns to zero, or `None`. -/
def extract_balanced_json (s : List Char) : Option (List Char) :=
  match s.dropWhile (· ≠ '{') with
  | [] => none
  | t => balancedScan 0 [] t

/-- One character of `core.replace('\r', '\\r').replace('\n', '\\n')`: the
first replace introduces no newline, so the two sequential replaces equal a
single character-wise expansion. -/
def escapeNLChar (c : Char) : List Char :=
  if c = '\r' then ['\\', 'r'] else if c = '\n' then ['\\', 'n'] else [c]

def escapeNL (s : List Char) : List Char :=
  s.foldr (fun c r => escapeNLChar c ++ r) []

/-! ## The JSON parser (model of `json.loads`) -/

def hexVal (c : Char) : Option Nat :=
  if '0' ≤ c ∧ c ≤ '9' then some (c.toNat - '0'.toNat)
  else if 'a' ≤ c ∧ c ≤ 'f' then some (c.toNat - 'a'.toNat + 10)
  else if 'A' ≤ c ∧ c ≤ 'F' then some (c.toNat - 'A'.toNat + 10)
  else none

def hex4 (h1 h2 h3 h4 : Char) : Option Nat :=
  match hexVal h1, hexVal h2, hexVal h3, hexVal h4 with
  | some a, some b, some c, some d => some (((a * 16 + b) * 16 + c) * 16 + d)
  | _, _, _, _ => none

def isHighSurrogate (n : Nat) : Bool := 0xD800 ≤ n && n ≤ 0xDBFF
def isLowSurrogate (n : Nat) : Bool := 0xDC00 ≤ n && n ≤ 0xDFFF

/-- Prepend a decoded character to the content of a successful scan. -/
def mapCons (x : Char) (r : Option (List Char × List Char)) :
    Option (List Char × List Char) :=
  r.map fun p => (x :: p.1, p.2)

/-- The two-character escapes accepted inside JSON string literals. -/
def escCharOf (c : Char) : Option Char :=
  if c = '"' then some '"'
  else if c = '\\' then some '\\'
  else if c = '/' then some '/'
  else if c = 'b' then some '\x08'
  else if c = 'f' then some '\x0c'
  else if c = 'n' then some '\n'
  else if c = 'r' then some '\r'
  else if c = 't' then some '\t'
  else none

mutual

/-- Scan a JSON string literal after its opening quote, in strict mode: raw
control characters are rejected, escapes are decoded.  Returns the decoded
content and the remainder after the closing quote. -/
def parseStringBody : List Char → Option (List Char × List Char)
  | [] => none
  | c :: rest =>
    if c = '"' then some ([], rest)
    else if c = '\\' then parseEscape rest
    else if c.toNat < 0x20 then none
    else
      match parseStringBody rest with
      | none => none
      | some (cs, r) => some (c :: cs, r)

/-- One escape sequence after the backslash. -/
def parseEscape : List Char → Option (List Char × List Char)
  | [] => none
  | e :: rest =>
    if e = 'u' then parseU rest
    else
      match escCharOf e with
      | none => none
      | some c =>
        match parseStringBody rest with
        | none => none
        | some (cs, r) => some (c :: cs, r)

/-- The `\uXXXX` escape after `\u`: surrogate pairs are combined (a lone
surrogate, which Lean's `Char` cannot carry, maps through `Char.ofNat`). -/
def parseU : List Char → Option (List Char × List Char)
  | h1 :: h2 :: h3 :: h4 :: rest =>
    (hex4 h1 h2 h3 h4).bind fun n =>
      if isHighSurrogate n then parseUHigh n rest
      else mapCons (Char.ofNat n) (parseStringBody rest)
  | _ => none

/-- Continuation after a high surrogate `\uXXXX` of value `n`: an
immediately following low-surrogate escape combines with it; otherwise the
lone value is emitted and the ordinary scan resumes (its first step inlined
so the recursion stays structural). -/
def parseUHigh (n : Nat) : List Char → Option (List Char × List Char)
  | b :: u :: g1 :: g2 :: g3 :: g4 :: rest2 =>
    if b = '\\' ∧ u = 'u' then
      match hex4 g1 g2 g3 g4 with
      | none => none
      | some m =>
        if isLowSurrogate m then
          mapCons (Char.ofNat (0x10000 + (n - 0xD800) * 0x400 + (m - 0xDC00)))
            (parseStringBody rest2)
        else mapCons (Char.ofNat n) (parseU (g1 :: g2 :: g3 :: g4 :: rest2))
    else if b = '"' then some ([Char.ofNat n], u :: g1 :: g2 :: g3 :: g4 :: rest2)
    else if b = '\\' then
      mapCons (Char.ofNat n) (parseEscape (u :: g1 :: g2 :: g3 :: g4 :: rest2))
    else if b.toNat < 0x20 then none
    else
      mapCons (Char.ofNat n)
        (mapCons b (parseStringBody (u :: g1 :: g2 :: g3 :: g4 :: rest2)))
  | b :: tl =>
    if b = '"' then some ([Char.ofNat n], tl)
    else if b = '\\' then mapCons (Char.ofNat n) (parseEscape tl)
    else if b.toNat < 0x20 then none
    else mapCons (Char.ofNat n) (mapCons b (parseStringBody tl))
  | [] => none

end

def isDigit (c : Char) : Bool := '0' ≤ c && c ≤ '9'

def takeDigits : List Char → (List Char × List Char)
  | [] => ([], [])
  | c :: rest =>
    if isDigit c then
      let p := takeDigits rest
      (c :: p.1, p.2)
    else ([], c :: rest)

def digitsVal (ds : List Char) : Nat :=
  ds.foldl (fun a c => 10 * a + (c.toNat - '0'.toNat)) 0

/-- The integer part of the JSON number grammar: `0` alone, or a nonzero
digit followed by digits. -/
def parseIntPart : List Char → Option (List Char × List Char)
  | [] => none
  | c :: rest =>
    if c = '0' then some (['0'], rest)
    else if isDigit c then
      let p := takeDigits rest
      some (c :: p.1, p.2)
    else none

/-- Optional fraction group `(\.\d+)?`; when absent the input is returned
unconsumed. -/
def parseFrac : List Char → (List Char × List Char)
  | [] => ([], [])
  | c :: rest =>
    if c = '.' then
      let p := takeDigits rest
      if p.1.isEmpty then ([], c :: rest) else ('.' :: p.1, p.2)
    else ([], c :: rest)

/-- Optional exponent group `([eE][-+]?\d+)?`; when absent the input is
returned unconsumed. -/
def parseExp : List Char → (List Char × List Char)
  | [] => ([], [])
  | c :: rest =>
    if c = 'e' || c = 'E' then
      match rest with
      | [] => ([], [c])
      | s :: rest2 =>
        if s = '+' || s = '-' then
          let p := takeDigits rest2
          if p.1.isEmpty then ([], c :: s :: rest2) else (c :: s :: p.1, p.2)
        else
          let p := takeDigits (s :: rest2)
          if p.1.isEmpty then ([], c :: s :: rest2) else (c :: p.1, p.2)
    else ([], c :: rest)

/-- A JSON number token.  A pure integer is interpreted; a token with a
fraction or exponent is kept as its lexeme. -/
def parseNumber : List Char → Option (JVal × List Char)
  | [] => none
  | c :: rest =>
    if c = '-' then
      (parseIntPart rest).map fun p =>
        let f := parseFrac p.2
        let e := parseExp f.2
        if f.1.isEmpty && e.1.isEmpty then (.num (-(digitsVal p.1 : Int)), p.2)
        else (.numLit ('-' :: p.1 ++ f.1 ++ e.1), e.2)
    else
      (parseIntPart (c :: rest)).map fun p =>
        let f := parseFrac p.2
        let e := parseExp f.2
        if f.1.isEmpty && e.1.isEmpty then (.num (digitsVal p.1), p.2)
        else (.numLit (p.1 ++ f.1 ++ e.1), e.2)

/-- Python `dict` insertion: an existing key keeps its slot and gets the new
value; a fresh key is appended. -/
def jInsert (k : String) (v : JVal) : List (String × JVal) → List (String × JVal)
  | [] => [(k, v)]
  | (k0, v0) :: rest => if k0 = k then (k0, v) :: rest else (k0, v0) :: jInsert k v rest

/-- `dict(pairs)`: fold the parsed member list through dict insertion, so a
duplicate key keeps its first slot with the last value. -/
def jObjOf (pairs : List (String × JVal)) : List (String × JVal) :=
  pairs.foldl (fun m kv => jInsert kv.1 kv.2 m) []

/-- The fixed literal tokens `null`, `true`, `false`, `NaN`, `Infinity`
(after their first character has been inspected). -/
def parseLit (lit : List Char) (v : JVal) (s : List Char) : Option (JVal × List Char) :=
  if s.take lit.length = lit then some (v, s.drop lit.length) else none

mutual

/-- One JSON value, fuel-bounded.  The caller is expected to have skipped
leading whitespace. -/
def parseValue : Nat → List Char → Option (JVal × List Char)
  | 0, _ => none
  | fuel + 1, s =>
    match s with
    | [] => none
    | c :: rest =>
      if c = '"' then
        match parseStringBody rest with
        | none => none
        | some (cs, r) => some (.str ⟨cs⟩, r)
      else if c = '{' then parseObjBody fuel rest
      else if c = '[' then parseArrBody fuel rest
      else if c = 'n' then parseLit ['n', 'u', 'l', 'l'] .null (c :: rest)
      else if c = 't' then parseLit ['t', 'r', 'u', 'e'] (.bool true) (c :: rest)
      else if c = 'f' then parseLit ['f', 'a', 'l', 's', 'e'] (.bool false) (c :: rest)
      else
        match parseNumber (c :: rest) with
        | some (v, r) => some (v, r)
        | none =>
          if c = 'N' then parseLit ['N', 'a', 'N'] (.numLit ['N', 'a', 'N']) (c :: rest)
          else if c = 'I' then
            parseLit ['I', 'n', 'f', 'i', 'n', 'i', 't', 'y']
              (.numLit ['I', 'n', 'f', 'i', 'n', 'i', 't', 'y']) (c :: rest)
          else if c = '-' then
            parseLit ['-', 'I', 'n', 'f', 'i', 'n', 'i', 't', 'y']
              (.numLit ['-', 'I', 'n', 'f', 'i', 'n', 'i', 't', 'y']) (c :: rest)
          else none

/-- Array body after `[`. -/
def parseArrBody : Nat → List Char → Option (JVal × List Char)
  | 0, _ => none
  | fuel + 1, s =>
    match skipWs s with
    | [] => none
    | c :: rest =>
      if c = ']' then some (.arr [], rest)
      else parseElems fuel (c :: rest) []

/-- Array elements, accumulated in reverse. -/
def parseElems : Nat → List Char → List JVal → Option (JVal × List Char)
  | 0, _, _ => none
  | fuel + 1, s, acc =>
    match parseValue fuel (skipWs s) with
    | none => none
    | some (v, r) =>
      match skipWs r with
      | [] => none
      | c :: rest =>
        if c = ',' then parseElems fuel rest (v :: acc)
        else if c = ']' then some (.arr (v :: acc).reverse, rest)
        else none

/-- Object body after `{`. -/
def parseObjBody : Nat → List Char → Option (JVal × List Char)
  | 0, _ => none
  | fuel + 1, s =>
    match skipWs s with
    | [] => none
    | c :: rest =>
      if c = '}' then some (.obj [], rest)
      else parseMembers fuel (c :: rest) []

/-- Object members, accumulated in reverse; the final object goes through
`dict(pairs)`. -/
def parseMembers : Nat → List Char → List (String × JVal) → Option (JVal × List Char)
  | 0, _, _ => none
  | fuel + 1, s, acc =>
    match skipWs s with
    | [] => none
    | c :: rest =>
      if c = '"' then
        match parseStringBody rest with
        | none => none
        | some (kcs, r1) =>
          match skipWs r1 with
          | [] => none
          | c1 :: r2 =>
            if c1 = ':' then
              match parseValue fuel (skipWs r2) with
              | none => none
              | some (v, r3) =>
                match skipWs r3 with
                | [] => none
                | c2 :: r4 =>
                  if c2 = ',' then parseMembers fuel r4 ((⟨kcs⟩, v) :: acc)
                  else if c2 = '}' then some (.obj (jObjOf ((⟨kcs⟩, v) :: acc).reverse), r4)
                  else none
            else none
      else none

end

/-- `json.loads`: parse one value and require only whitespace to follow.
The fuel `2 * length + 2` is shown sufficient for every serialized value in
the round-trip development below. -/
def jsonParse (s : List Char) : Option JVal :=
  match parseValue (2 * s.length + 2) (skipWs s) with
  | some (v, rest) => if (skipWs rest).isEmpty then some v else none
  | none => none

/-! ## The decode ladder -/

/-- `s = raw_text.lstrip(BOM).strip()` followed by `_normalize_quotes`. -/
def coerceNormalize (raw : List Char) : List Char :=
  normalize_quotes (pyStrip (stripBOM raw))

/-- `coerce_json` from `app.py`: empty input short-circuits to the empty
record; otherwise strip the BOM and surrounding whitespace, normalize
typographic quotes, then try direct parse, balanced-brace extraction, and
newline escaping; `none` models an uncaught exception. -/
def coerce_json (raw : List Char) : Option JVal :=
  if raw.isEmpty then some (.obj [])
  else
    match jsonParse (coerceNormalize raw) with
    | some v => some v
    | none =>
      match extract_balanced_json (coerceNormalize raw) with
      | some core =>
        match jsonParse core with
        | some v => some v
        | none => jsonParse (escapeNL core)
      | none => none

/-- Whitespace class of the regex `\s` (ASCII part). -/
def skipWsRe (s : List Char) : List Char := s.dropWhile isPyWs

/-- The quoted-group part of the salvage regex `([^"]*(?:\\"[^"]*)*)`: with
greedy backtracking the group extends past every quote preceded by a
backslash and ends at the first quote that is not. -/
def salvageContent : List Char → Option (List Char × List Char)
  | [] => none
  | '\\' :: '"' :: rest =>
    match salvageContent rest with
    | none => none
    | some (g, r) => some ('\\' :: '"' :: g, r)
  | '"' :: rest => some ([], rest)
  | c :: rest =>
    match salvageContent rest with
    | none => none
    | some (g, r) => some (c :: g, r)

/-- Attempt the salvage regex `"answer"\s*:\s*"(...)"` at the head of the
input. -/
def salvageAt (s : List Char) : Option (List Char) :=
  match s with
  | '"' :: 'a' :: 'n' :: 's' :: 'w' :: 'e' :: 'r' :: '"' :: rest =>
    match skipWsRe rest with
    | ':' :: r2 =>
      match skipWsRe r2 with
      | '"' :: r3 => (salvageContent r3).map (·.1)
      | _ => none
    | _ => none
  | _ => none

/-- `re.search`: leftmost match wins. -/
def salvageSearch : List Char → Option (List Char)
  | [] => none
  | c :: rest =>
    match salvageAt (c :: rest) with
    | some g => some g
    | none => salvageSearch rest

/-- `answer_text = m.group(1).replace('\\"', '"')`: left-to-right
non-overlapping replacement of the two-character sequence. -/
def unescapeQuotes : List Char → List Char
  | '\\' :: '"' :: rest => '"' :: unescapeQuotes rest
  | c :: rest => c :: unescapeQuotes rest
  | [] => []

/-- The regex salvage step of `send_to_gemini`. -/
def salvage (raw : List Char) : Option String :=
  (salvageSearch raw).map fun g => ⟨unescapeQuotes g⟩

/-- The diagnostic payload of the total-failure `ValueError` in
`send_to_gemini`: input length and the first and last 200 characters. -/
structure DecodeErr where
  length : Nat
  headEx : String
  tailEx : String
  deriving DecidableEq, Repr

def mkDecodeErr (raw : List Char) : DecodeErr :=
  ⟨raw.length, ⟨raw.take 200⟩, ⟨raw.drop (raw.length - 200)⟩⟩

/-- The full decode ladder of `send_to_gemini`: `coerce_json`, then on
failure the regex salvage producing `{"answer": ..., "updated_questions":
None}`, then the diagnostic `ValueError`. -/
def decode_reply (raw : String) : Except DecodeErr JVal :=
  match coerce_json raw.data with
  | some v => .ok v
  | none =>
    match salvage raw.data with
    | some ans => .ok (.obj [("answer", .str ans), ("updated_questions", .null)])
    | none => .error (mkDecodeErr raw.data)

/-! ## Serialization of a Decoded Reply

Modelled from the spec: the source has no `serialize` function (the spec's
round-trip property quantifies over serializations of well-formed Decoded
Replies), so serialization is modelled on the repository's own JSON writes,
`json.dumps(..., ensure_ascii=False)` with the default separators `", "` and
`": "`: mandatory escapes only, all other characters emitted raw. -/

def hexDigit (n : Nat) : Char :=
  if n < 10 then Char.ofNat ('0'.toNat + n) else Char.ofNat ('a'.toNat + (n - 10))

/-- One character of `json.dumps` string escaping with `ensure_ascii=False`:
the backslash, the quote, the five short control escapes, `\u00XX` for the
remaining control characters, and everything else raw. -/
def escStrChar (c : Char) : List Char :=
  if c = '"' then ['\\', '"']
  else if c = '\\' then ['\\', '\\']
  else if c = '\n' then ['\\', 'n']
  else if c = '\r' then ['\\', 'r']
  else if c = '\t' then ['\\', 't']
  else if c = '\x08' then ['\\', 'b']
  else if c = '\x0c' then ['\\', 'f']
  else if c.toNat < 0x20 then ['\\', 'u', '0', '0', hexDigit (c.toNat / 16), hexDigit (c.toNat % 16)]
  else [c]

def escString (s : String) : List Char := s.data.foldr (fun c r => escStrChar c ++ r) []

def natCharsAux : Nat → Nat → List Char
  | 0, _ => []
  | fuel + 1, n =>
    if n < 10 then [Nat.digitChar n] else natCharsAux fuel (n / 10) ++ [Nat.digitChar (n % 10)]

def natChars (n : Nat) : List Char := natCharsAux (n + 1) n

def intChars (n : Int) : List Char :=
  if n < 0 then '-' :: natChars (-n).toNat else natChars n.toNat

mutual

def jserialize : JVal → List Char
  | .null => "null".data
  | .bool true => "true".data
  | .bool false => "false".data
  | .num n => intChars n
  | .numLit lex => lex
  | .str s => '"' :: (escString s ++ ['"'])
  | .arr xs => '[' :: (serElems xs ++ [']'])
  | .obj fs => '{' :: (serFields fs ++ ['}'])

def serElems : List JVal → List Char
  | [] => []
  | [x] => jserialize x
  | x :: y :: rest => jserialize x ++ ',' :: ' ' :: serElems (y :: rest)

def serFields : List (String × JVal) → List Char
  | [] => []
  | [kv] => '"' :: (escString kv.1 ++ '"' :: ':' :: ' ' :: jserialize kv.2)
  | kv :: kv2 :: rest =>
    ('"' :: (escString kv.1 ++ '"' :: ':' :: ' ' :: jserialize kv.2)) ++ ',' :: ' ' :: serFields (kv2 :: rest)

end

/-! Fuel sufficient for the parser to consume one serialized value; shown
below to be bounded by the fuel `jsonParse` grants. -/

mutual

def needV : JVal → Nat
  | .arr xs => 2 + needElems xs
  | .obj fs => 2 + needMembers fs
  | _ => 1

def needElems : List JVal → Nat
  | [] => 0
  | x :: rest => 1 + needV x + needElems rest

def needMembers : List (String × JVal) → Nat
  | [] => 0
  | kv :: rest => 1 + needV kv.2 + needMembers rest

end

/-- A character untouched by `_normalize_quotes`. -/
def plainChar (c : Char) : Bool :=
  !(c = '“' || c = '”' || c = '‘' || c = '’')

def plainString (s : String) : Bool := s.data.all plainChar

def keysNodup : List String → Bool
  | [] => true
  | k :: rest => !(rest.contains k) && keysNodup rest

/-! Well-formedness for the round-trip: no raw numeric lexemes (a Decoded
Reply holds integers only), object keys distinct (so the `dict` rebuild is
the identity), and no typographic quote characters (which
`_normalize_quotes` would rewrite inside string content). -/

mutual

def wfJ : JVal → Bool
  | .null => true
  | .bool _ => true
  | .num _ => true
  | .numLit _ => false
  | .str s => plainString s
  | .arr xs => wfElems xs
  | .obj fs => keysNodup (fs.map (·.1)) && wfFields fs

def wfElems : List JVal → Bool
  | [] => true
  | x :: rest => wfJ x && wfElems rest

def wfFields : List (String × JVal) → Bool
  | [] => true
  | kv :: rest => plainString kv.1 && wfJ kv.2 && wfFields rest

end

/-- A partial Question patch inside a Decoded Reply: any subset of the
question fields may be present. -/
structure QPatch where
  id : Option String := none
  position : Option Int := none
  question : Option String := none
  status : Option String := none
  answer : Option String := none
  summary : Option String := none
  summary_template : Option String := none
  deriving DecidableEq, Repr

def optStrField (k : String) (v : Option String) : List (String × JVal) :=
  match v with | some s => [(k, .str s)] | none => []

def optIntField (k : String) (v : Option Int) : List (String × JVal) :=
  match v with | some n => [(k, .num n)] | none => []

def patchToJVal (p : QPatch) : JVal :=
  .obj (optStrField "id" p.id ++ optIntField "position" p.position ++
        optStrField "question" p.question ++ optStrField "status" p.status ++
        optStrField "answer" p.answer ++ optStrField "summary" p.summary ++
        optStrField "summary_template" p.summary_template)

/-- A well-formed Decoded Reply: `answer`, optional patches, optional
summary (spec, section 3). -/
structure Reply where
  answer : String
  updated_questions : Option (List QPatch) := none
  summary : Option String := none
  deriving DecidableEq, Repr

def replyToJVal (r : Reply) : JVal :=
  .obj ([("answer", .str r.answer)] ++
        (match r.updated_questions with
         | some l => [("updated_questions", .arr (l.map patchToJVal))]
         | none => []) ++
        optStrField "summary" r.summary)

def serializeReply (r : Reply) : String := ⟨jserialize (replyToJVal r)⟩

def wfReply (r : Reply) : Bool := wfJ (replyToJVal r)

/-! ## The Conversation State Reconciler

Questions are the dictionaries held in `st.session_state.question_list` and
the patch dictionaries arriving from the model.  Each recognised field is
optional, mirroring `dict.get`; `q["key"]` accesses that would raise
`KeyError` on a missing key are modelled with `Except` or, where every claim
hypothesises the key present, by treating the missing key as a non-match
(noted at each site). -/

structure Question where
  id : Option String := none
  position : Option Int := none
  question : Option String := none
  status : Option String := none
  answer : Option String := none
  summary : Option String := none
  summary_template : Option String := none
  deriving DecidableEq, Repr

/-- Python truthiness of an optional string: absent (or `None`) and the
empty string are falsy. -/
def truthy : Option String → Bool
  | none => false
  | some s => !(s == "")

inductive MergeErr where
  | missingId
  | missingPosition
  | badPatches
  deriving DecidableEq, Repr

/-- Python `dict` insertion for the question map: an existing key keeps its
slot and receives the new value; a fresh key is appended. -/
def dictInsert (k : String) (v : Question) : List (String × Question) → List (String × Question)
  | [] => [(k, v)]
  | (k0, v0) :: rest => if k0 = k then (k0, v) :: rest else (k0, v0) :: dictInsert k v rest

/-- `qmap = {q["id"]: q for q in st.session_state.question_list}`: a question
without an `id` makes the subscript raise. -/
def buildQmap (qs : List Question) : Except MergeErr (List (String × Question)) :=
  qs.foldlM
    (fun m q =>
      match q.id with
      | none => .error .missingId
      | some i => .ok (dictInsert i q m))
    []

/-- The patch loop of `merge_updates`: a patch whose `id` is absent or
matches no existing key is skipped; a matching patch replaces the stored
question wholesale (the diagnostic prints have no state effect). -/
def applyUpdates (m : List (String × Question)) (updates : List Question) : List (String × Question) :=
  updates.foldl
    (fun m uq =>
      match uq.id with
      | some i => if m.any (·.1 == i) then dictInsert i uq m else m
      | none => m)
    m

/-- The sort key `lambda x: x["position"]`, meaningful when the position is
present. -/
def posKey (q : Question) : Int := q.position.getD 0

/-- Stable insertion: an incoming element goes before the first stored
element whose key is not smaller, matching Python's stable sort. -/
def insertPos (x : Question) : List Question → List Question
  | [] => [x]
  | y :: ys => if posKey y < posKey x then y :: insertPos x ys else x :: y :: ys

def sortPos : List Question → List Question
  | [] => []
  | x :: xs => insertPos x (sortPos xs)

/-- `sorted(qmap.values(), key=lambda x: x["position"])`: any entry without a
`position` makes the key function raise. -/
def sortByPosition (qs : List Question) : Except MergeErr (List Question) :=
  if qs.all (·.position.isSome) then .ok (sortPos qs) else .error .missingPosition

/-- `merge_updates` from `app.py`.  `none` and the empty list are no-ops;
otherwise build the id-keyed map, substitute matching patches, and re-sort
the values by position. -/
def merge_updates (qs : List Question) (updated_questions : Option (List Question)) :
    Except MergeErr (List Question) :=
  match updated_questions with
  | none => .ok qs
  | some us =>
    if us.isEmpty then .ok qs
    else
      match buildQmap qs with
      | .error e => .error e
      | .ok m => sortByPosition ((applyUpdates m us).map (·.2))

def statusIs (q : Question) (s : String) : Bool := q.status == some s

/-- `q.get("status") == "pending" and not q.get("answer")`. -/
def pendingNoAnswer (q : Question) : Bool := statusIs q "pending" && !truthy q.answer

/-- `compute_progress` from `app.py`: total, completed count, and the first
pending-and-unanswered question in list order. -/
def compute_progress (qs : List Question) : Nat × Nat × Option Question :=
  (qs.length, qs.countP (fun q => statusIs q "completed"), qs.find? pendingNoAnswer)

/-! ## The auto-fix validation block (chat handler, lines 1031-1049) -/

/-- The body of the auto-fix loop once a candidate is found: force
`completed`, backfill a missing answer from the user's raw input, and copy
the model's summary when the question has none. -/
def fixQuestion (q : Question) (userText : String) (outSummary : Option String) : Question :=
  { q with
    status := some "completed"
    answer := if truthy q.answer then q.answer else some userText
    summary := if !truthy q.summary && truthy outSummary then outSummary else q.summary }

/-- The `for q in st.session_state.question_list` loop with its `break`: fix
the first question whose id matches and whose status is not `completed`.
A question with no `id` is treated as a non-match (in Python the subscript
would raise; every claim hypothesises ids present). -/
def fixLoop (userText : String) (outSummary : Option String) (pid : String) :
    List Question → List Question
  | [] => []
  | q :: rest =>
    if q.id == some pid && !(statusIs q "completed") then
      fixQuestion q userText outSummary :: rest
    else q :: fixLoop userText outSummary pid rest

/-- The auto-fix validation block: compare the pending id before the turn
with the pending id after the merge (both must be truthy and different) and
repair the previously pending question. -/
def autoFix (qs : List Question) (prevId : Option String) (userText : String)
    (outSummary : Option String) : List Question :=
  let newId : Option String :=
    match (compute_progress qs).2.2 with
    | some q => q.id
    | none => none
  if truthy prevId && truthy newId && prevId != newId then
    match prevId with
    | some pid => fixLoop userText outSummary pid qs
    | none => qs
  else qs

/-! ## The summary-render block inside `send_to_gemini` (lines 203-233)

The block runs inside its own `try`/`except` that swallows every exception,
so any raising path leaves the question list unchanged.  The Jinja
environment is an external collaborator and enters as the function
parameter `render`; returning `none` models a `TemplateError` (recovered as
no summary). -/

def jtruthy : JVal → Bool
  | .null => false
  | .bool b => b
  | .num n => !(n == 0)
  | .numLit _ => true
  | .str s => !(s == "")
  | .arr xs => !xs.isEmpty
  | .obj fs => !fs.isEmpty

def jlookup (k : String) : JVal → Option JVal
  | .obj fs => (fs.find? (·.1 == k)).map (·.2)
  | _ => none

/-- `q["id"] == uq["id"]` where the left side is a session question's id
string and the right an arbitrary JSON value: in Python a string equals only
an equal string. -/
def idMatches (idv : JVal) (q : Question) : Bool :=
  match idv, q.id with
  | .str a, some b => a == b
  | _, _ => false

/-- `render_summary_from_template`: no template or an empty template yields
`None`; otherwise the Jinja collaborator renders (or fails). -/
def render_summary_from_template (render : Question → List (String × JVal) → Option String)
    (q : Question) (fields : List (String × JVal)) : Option String :=
  match q.summary_template with
  | none => none
  | some tpl => if tpl == "" then none else render q fields

/-- The assignment loop `for q in ...: if q["id"] == current_q["id"]:
q["summary"] = value; break`. -/
def setSummaryFirst (idv : JVal) (s : String) : List Question → List Question
  | [] => []
  | q :: rest =>
    if idMatches idv q then { q with summary := some s } :: rest
    else q :: setSummaryFirst idv s rest

def renderBlock (render : Question → List (String × JVal) → Option String)
    (qs : List Question) (out : JVal) : List Question :=
  match out with
  | .obj _ =>
    let fields : List (String × JVal) :=
      match jlookup "fields" out with
      | some (.obj fs) => fs
      | _ => []
    let applyCurrent (cq : Question) (idv : JVal) : List Question :=
      match render_summary_from_template render cq fields with
      | some rendered => setSummaryFirst idv rendered qs
      | none =>
        match jlookup "summary" out with
        | some sv =>
          if jtruthy sv then
            match sv with
            | .str s => setSummaryFirst idv (String.mk (pyStrip s.data)) qs
            | _ => qs
          else qs
        | none => qs
    let pendPath : List Question :=
      match (compute_progress qs).2.2 with
      | some cq =>
        match cq.id with
        | some i => applyCurrent cq (.str i)
        | none => qs
      | none => qs
    match jlookup "updated_questions" out with
    | some uqv =>
      if jtruthy uqv then
        match uqv with
        | .arr (uq :: _) =>
          match uq with
          | .obj _ =>
            match jlookup "id" uq with
            | some idv =>
              match qs.find? (idMatches idv) with
              | some cq => applyCurrent cq idv
              | none => qs
            | none => qs
          | _ => qs
        | _ => qs
      else pendPath
    | none => pendPath
  | _ => qs

/-! ## The chat-turn transition (handler at lines 1007-1052) -/

structure Turn where
  role : String
  content : String
  deriving DecidableEq, Repr

structure AppState where
  history : List Turn
  question_list : List Question
  deriving DecidableEq, Repr

/-- Either the transport raised (network, auth, model-service failure inside
`client.models.generate_content`) or raw response text came back. -/
inductive ModelResult where
  | transportErr : ModelResult
  | raw (text : String) : ModelResult

inductive TurnErr where
  | transport
  | decode (e : DecodeErr)
  deriving DecidableEq, Repr

inductive TurnOutcome where
  | ok | aborted | crashed
  deriving DecidableEq, Repr

/-- `send_to_gemini`: the transport call, the decode ladder, and the
summary-render block (the latter only on the `coerce_json` path; the regex
salvage lives in the `except` handler and skips it). -/
def send_to_gemini (render : Question → List (String × JVal) → Option String)
    (qs : List Question) (mr : ModelResult) : Except TurnErr (JVal × List Question) :=
  match mr with
  | .transportErr => .error .transport
  | .raw t =>
    match coerce_json t.data with
    | some out => .ok (out, renderBlock render qs out)
    | none =>
      match salvage t.data with
      | some ans => .ok (.obj [("answer", .str ans), ("updated_questions", .null)], qs)
      | none => .error (.decode (mkDecodeErr t.data))

/-- `out.get("answer", "")`.  A non-string answer value is stored as-is by
Python; that corner is flattened to `""` and never exercised by a claim. -/
def answerText (out : JVal) : String :=
  match jlookup "answer" out with
  | some (.str s) => s
  | some _ => ""
  | none => ""

/-- `out.get("updated_questions") or out.get("question_list")`. -/
def selectPatchField (out : JVal) : Option JVal :=
  match jlookup "updated_questions" out with
  | some v => if jtruthy v then some v else jlookup "question_list" out
  | none => jlookup "question_list" out

/-- Turn the selected patch field into the `merge_updates` argument: a falsy
value behaves as `None` (no-op), a list of dictionaries becomes patches, and
any other truthy value makes the Python loop raise. -/
def patchesOf (out : JVal) : Except MergeErr (Option (List Question)) :=
  match selectPatchField out with
  | none => .ok none
  | some (.arr l) =>
    if l.all (fun e => match e with | .obj _ => true | _ => false) then
      .ok (some (l.map fun e =>
        { id := match jlookup "id" e with | some (.str s) => some s | _ => none
          position := match jlookup "position" e with | some (.num n) => some n | _ => none
          question := match jlookup "question" e with | some (.str s) => some s | _ => none
          status := match jlookup "status" e with | some (.str s) => some s | _ => none
          answer := match jlookup "answer" e with | some (.str s) => some s | _ => none
          summary := match jlookup "summary" e with | some (.str s) => some s | _ => none
          summary_template :=
            match jlookup "summary_template" e with | some (.str s) => some s | _ => none }))
    else .error .badPatches
  | some v => if jtruthy v then .error .badPatches else .ok none

/-- `out.get("summary")` as used by the auto-fix block: the summary string
when present (a non-string truthy value would be copied verbatim by Python;
no claim exercises that corner). -/
def outSummaryOf (out : JVal) : Option String :=
  match jlookup "summary" out with
  | some (.str str) => some str
  | _ => none

/-- The chat input handler: append the user turn, remember the pending id,
call the model; on `DecodeError` or transport failure `st.stop()` leaves the
session with only the user turn appended; on success append the assistant
turn, merge, and run the auto-fix block.  An exception escaping the merge
(`.crashed`) leaves whatever had mutated so far. -/
def chatTurn (render : Question → List (String × JVal) → Option String)
    (s : AppState) (userText : String) (mr : ModelResult) : AppState × TurnOutcome :=
  let hist1 := s.history ++ [⟨"user", userText⟩]
  let prevId : Option String := ((compute_progress s.question_list).2.2).bind (·.id)
  match send_to_gemini render s.question_list mr with
  | .error _ => (⟨hist1, s.question_list⟩, .aborted)
  | .ok (out, qs1) =>
    match out with
    | .obj _ =>
      let hist2 := hist1 ++ [⟨"assistant", answerText out⟩]
      match patchesOf out with
      | .error _ => (⟨hist2, qs1⟩, .crashed)
      | .ok patches =>
        match merge_updates qs1 patches with
        | .error _ => (⟨hist2, qs1⟩, .crashed)
        | .ok qs2 => (⟨hist2, autoFix qs2 prevId userText (outSummaryOf out)⟩, .ok)
    | _ => (⟨hist1, qs1⟩, .crashed)

/-! ## Concrete session data used by witnesses -/

def exQ1 : Question :=
  { id := some "q1", position := some 1, question := some "Eerste vraag?", status := some "pending" }

def exQ2 : Question :=
  { id := some "q2", position := some 2, question := some "Tweede vraag?", status := some "pending" }

/-- `q["id"] == previous_pending_id` lookup: the first question with the
given id. -/
def findById : List Question → String → Option Question
  | [], _ => none
  | q :: rest, pid => if q.id == some pid then some q else findById rest pid

/-- A Jinja collaborator that always fails to render (summaries are
irrelevant to the witnesses below). -/
def exRender : Question → List (String × JVal) → Option String := fun _ _ => none

def exState : AppState := ⟨[], [exQ1, exQ2]⟩

/-- A model reply that overwrites `q1` with a non-pending, non-completed
status, advancing the pending pointer without completing `q1`. -/
def exC4raw : String :=
  "\x7b\"answer\":\"ok\",\"updated_questions\":[\x7b\"id\":\"q1\",\"position\":1,\"status\":\"skipped\"\x7d]\x7d"

def exC4out : JVal :=
  .obj [("answer", .str "ok"),
        ("updated_questions",
          .arr [.obj [("id", .str "q1"), ("position", .num 1), ("status", .str "skipped")]])]

def exC4patch : Question :=
  { id := some "q1", position := some 1, status := some "skipped" }

/-- The five-question collection of the spec's progress example: two
completed, one pending-but-answered, and the earliest pending-and-unanswered
question at index 3. -/
def exProgQs : List Question :=
  [ { id := some "a", position := some 1, status := some "completed", answer := some "x" },
    { id := some "b", position := some 2, status := some "completed", answer := some "y" },
    { id := some "c", position := some 3, status := some "pending", answer := some "z" },
    { id := some "d", position := some 4, status := some "pending" },
    { id := some "e", position := some 5, status := some "pending" } ]

def exProgD : Question := { id := some "d", position := some 4, status := some "pending" }

/-- An unremarkable string character: not a quote, backslash, control
character, brace, or typographic quote.  The C8 claim's string chunks range
over these. -/
def chunkChar (c : Char) : Bool :=
  !(c = '"') && !(c = '\\') && !(decide (c.toNat < 0x20)) && plainChar c &&
    !(c = '{') && !(c = '}')

/-- Prose wrapping a JSON object whose string value contains a closing
brace: the C10 scenario. -/
def exC10raw : String := "zie \x7b\"answer\":\"ok\x7d\"\x7d einde"

/-- What the balanced-brace scan extracts from it: a strict prefix of the
embedded object, cut at the brace inside the string literal. -/
def exC10core : List Char := "\x7b\"answer\":\"ok\x7d".data

/-- The embedded well-formed object itself. -/
def exC10obj : List Char := "\x7b\"answer\":\"ok\x7d\"\x7d".data

/-- A concrete well-formed Decoded Reply for the round-trip witness:
answer text, two question patches, and a summary. -/
def exC7r : Reply :=
  { answer := "Prima, dat noteer ik."
  , updated_questions := some
      [ { id := some "q1", position := some 1, question := some "Waar wonen de kinderen?"
        , status := some "completed", answer := some "Co-ouderschap, om de week." }
      , { id := some "q2", position := some 2, status := some "pending" } ]
  , summary := some "Afspraken over woonsituatie vastgelegd." }

/-- A Decoded Reply whose answer contains a typographic apostrophe, the
character `_normalize_quotes` rewrites. -/
def exC7bad : Reply := { answer := "’" }

/-- Observer reading the character data of the first field's string value
of an object; separates the two sides of the C7 counterexample. -/
def answerChars : JVal → List Char
  | .obj ((_, .str s) :: _) => s.data
  | _ => []

/-- What may follow a serialized number token without extending it: the
next character is no digit, decimal point, or exponent marker. -/
def numBoundary (rest : List Char) : Prop :=
  ∀ c, rest.head? = some c →
    isDigit c = false ∧ (c = '.') = False ∧ (c = 'e') = False ∧ (c = 'E') = False

/-! #############################################################
    Theorems
    ############################################################# -/

/-- The pair read by the post-merge sort and by the order-preservation
claims: a question's identity and its slot. -/
def idPos (q : Question) : Option String × Option Int := (q.id, q.position)

/-! ### Association-map lemmas for `merge_updates` -/

theorem dictInsert_keys_of_mem (k : String) (v : Question) :
    ∀ m : List (String × Question), m.any (·.1 == k) = true →
      (dictInsert k v m).map (·.1) = m.map (·.1) := by
  intro m h
  induction m with
  | nil => simp at h
  | cons kv rest ih =>
    cases kv with
    | mk k0 v0 =>
      by_cases hk : k0 = k
      · simp [dictInsert, hk]
      · have h2 : rest.any (·.1 == k) = true := by
          rw [List.any_cons, Bool.or_eq_true] at h
          rcases h with h | h
          · exact absurd (by simpa using h) hk
          · exact h
        simp [dictInsert, hk, ih h2]

theorem dictInsert_fresh (k : String) (v : Question) :
    ∀ m : List (String × Question), m.any (·.1 == k) = false →
      dictInsert k v m = m ++ [(k, v)] := by
  intro m h
  induction m with
  | nil => simp [dictInsert]
  | cons kv rest ih =>
    cases kv with
    | mk k0 v0 =>
      simp only [List.any_cons, Bool.or_eq_false_iff] at h
      have hk : ¬ (k0 = k) := by simpa using h.1
      simp [dictInsert, hk, ih h.2]

theorem applyUpdates_keys (us : List Question) :
    ∀ m : List (String × Question), (applyUpdates m us).map (·.1) = m.map (·.1) := by
  induction us with
  | nil => intro m; simp [applyUpdates]
  | cons u rest ih =>
    intro m
    have step :
        applyUpdates m (u :: rest) =
          applyUpdates
            (match u.id with
             | some i => if m.any (·.1 == i) then dictInsert i u m else m
             | none => m) rest := by
      simp [applyUpdates]
    rw [step]
    match hid : u.id with
    | none => rw [ih]
    | some i =>
      by_cases hc : m.any (·.1 == i) = true
      · simp only [hc, if_true]
        rw [ih, dictInsert_keys_of_mem i u m hc]
      · simp only [Bool.not_eq_true] at hc
        simp [hc, ih]

theorem applyUpdates_length (us : List Question) (m : List (String × Question)) :
    (applyUpdates m us).length = m.length := by
  have h := applyUpdates_keys us m
  have := congrArg List.length h
  simpa using this

theorem sortPos_length (l : List Question) : (sortPos l).length = l.length := by
  induction l with
  | nil => rfl
  | cons x xs ih =>
    have hins : ∀ y : Question, ∀ t : List Question, (insertPos y t).length = t.length + 1 := by
      intro y t
      induction t with
      | nil => rfl
      | cons z zs ihz =>
        by_cases hz : posKey z < posKey y
        · simp [insertPos, hz, ihz]
        · simp [insertPos, hz]
    simp [sortPos, hins, ih]

theorem buildQmap_eq (qs : List Question)
    (hids : ∀ q ∈ qs, q.id.isSome)
    (hnodup : (qs.map (·.id)).Nodup) :
    buildQmap qs = .ok (qs.map (fun q => (q.id.getD "", q))) := by
  have main : ∀ (l : List Question) (acc : List (String × Question)),
      (∀ q ∈ l, q.id.isSome) →
      ((l.map (·.id)).Nodup) →
      (∀ q ∈ l, acc.any (·.1 == q.id.getD "") = false) →
      l.foldlM
        (fun m q =>
          match q.id with
          | none => (.error .missingId : Except MergeErr (List (String × Question)))
          | some i => .ok (dictInsert i q m)) acc =
        .ok (acc ++ l.map (fun q => (q.id.getD "", q))) := by
    intro l
    induction l with
    | nil => intro acc _ _ _; simp only [List.foldlM_nil, List.map_nil, List.append_nil]; rfl
    | cons q rest ih =>
      intro acc h1 h2 h3
      obtain ⟨i, hi⟩ := Option.isSome_iff_exists.mp (h1 q (by simp))
      have hfresh : acc.any (·.1 == q.id.getD "") = false := h3 q (by simp)
      rw [hi] at hfresh
      have hrest1 : ∀ q2 ∈ rest, q2.id.isSome := fun q2 hq2 => h1 q2 (by simp [hq2])
      have hsplit : (∀ x ∈ rest, ¬ x.id = q.id) ∧ (rest.map (·.id)).Nodup := by
        simpa using h2
      have hrest2 : (rest.map (·.id)).Nodup := hsplit.2
      have hqid_not : q.id ∉ rest.map (·.id) := by
        intro hmem
        obtain ⟨x, hx, hxid⟩ := List.mem_map.mp hmem
        exact hsplit.1 x hx hxid
      have hrest3 : ∀ q2 ∈ rest, (acc ++ [(i, q)]).any (·.1 == q2.id.getD "") = false := by
        intro q2 hq2
        obtain ⟨j, hj⟩ := Option.isSome_iff_exists.mp (hrest1 q2 hq2)
        have hne : i ≠ j := by
          intro hij
          apply hqid_not
          have hq2id : q2.id = q.id := by rw [hi, hj, hij]
          rw [← hq2id]
          exact List.mem_map_of_mem (·.id) hq2
        have hacc := h3 q2 (by simp [hq2])
        rw [hj] at hacc ⊢
        simp only [List.any_append, Bool.or_eq_false_iff]
        constructor
        · simpa using hacc
        · simp [hne]
      simp only [List.foldlM_cons, hi]
      rw [show ((.ok (dictInsert i q acc) : Except MergeErr (List (String × Question))) >>=
            fun b => rest.foldlM
              (fun m q =>
                match q.id with
                | none => (.error .missingId : Except MergeErr (List (String × Question)))
                | some i => .ok (dictInsert i q m)) b) =
          rest.foldlM
            (fun m q =>
              match q.id with
              | none => (.error .missingId : Except MergeErr (List (String × Question)))
              | some i => .ok (dictInsert i q m)) (dictInsert i q acc) from rfl]
      rw [dictInsert_fresh i q acc (by simpa using hfresh)]
      rw [ih (acc ++ [(i, q)]) hrest1 hrest2 hrest3]
      simp [hi]
  have h0 : ∀ q ∈ qs, ([] : List (String × Question)).any (·.1 == q.id.getD "") = false := by
    intro q _; rfl
  exact main qs [] hids hnodup h0

theorem dictInsert_idpos_of_mem (i : String) (u : Question) :
    ∀ m : List (String × Question), m.any (·.1 == i) = true →
      (∀ kv ∈ m, kv.1 = i → u.position = kv.2.position) →
      (dictInsert i u m).map (fun kv => (kv.1, kv.2.position)) =
        m.map (fun kv => (kv.1, kv.2.position)) := by
  intro m
  induction m with
  | nil => intro h _; simp at h
  | cons kv rest ih =>
    cases kv with
    | mk k0 v0 =>
      intro h hpos
      by_cases hk : k0 = i
      · have := hpos (k0, v0) (by simp) hk
        simp [dictInsert, hk, this]
      · have h2 : rest.any (·.1 == i) = true := by
          rw [List.any_cons, Bool.or_eq_true] at h
          rcases h with h | h
          · exact absurd (by simpa using h) hk
          · exact h
        have hrest : ∀ kv ∈ rest, kv.1 = i → u.position = kv.2.position :=
          fun kv hkv => hpos kv (by simp [hkv])
        simp [dictInsert, hk, ih h2 hrest]

theorem applyUpdates_idpos (us : List Question) :
    ∀ m : List (String × Question),
      (∀ u ∈ us, ∀ kv ∈ m, u.id = some kv.1 → u.position = kv.2.position) →
      (applyUpdates m us).map (fun kv => (kv.1, kv.2.position)) =
        m.map (fun kv => (kv.1, kv.2.position)) := by
  induction us with
  | nil => intro m _; simp [applyUpdates]
  | cons u rest ih =>
    intro m h
    have step :
        applyUpdates m (u :: rest) =
          applyUpdates
            (match u.id with
             | some i => if m.any (·.1 == i) then dictInsert i u m else m
             | none => m) rest := by
      simp [applyUpdates]
    rw [step]
    have hrest0 : ∀ u2 ∈ rest, ∀ kv ∈ m, u2.id = some kv.1 → u2.position = kv.2.position :=
      fun u2 hu2 => h u2 (by simp [hu2])
    match hid : u.id with
    | none => exact ih m hrest0
    | some i =>
      by_cases hc : m.any (·.1 == i) = true
      · simp only [hc, if_true]
        have hdict : (dictInsert i u m).map (fun kv => (kv.1, kv.2.position)) =
            m.map (fun kv => (kv.1, kv.2.position)) := by
          apply dictInsert_idpos_of_mem i u m hc
          intro kv hkv hk1
          exact h u (by simp) kv hkv (by rw [hid, hk1])
        have hrest1 : ∀ u2 ∈ rest, ∀ kv ∈ dictInsert i u m,
            u2.id = some kv.1 → u2.position = kv.2.position := by
          intro u2 hu2 kv hkv hid2
          have hmem : (kv.1, kv.2.position) ∈ m.map (fun kv => (kv.1, kv.2.position)) := by
            rw [← hdict]
            exact List.mem_map_of_mem _ hkv
          obtain ⟨kv0, hkv0, heq⟩ := List.mem_map.mp hmem
          have hsplit : kv0.1 = kv.1 ∧ kv0.2.position = kv.2.position := Prod.mk.inj heq
          rw [← hsplit.2]
          exact hrest0 u2 hu2 kv0 hkv0 (by rw [hid2, hsplit.1])
        rw [ih (dictInsert i u m) hrest1, hdict]
      · simp only [Bool.not_eq_true] at hc
        simp only [hc, if_false]
        exact ih m hrest0

theorem mem_dictInsert (k : String) (v : Question) :
    ∀ m kv, kv ∈ dictInsert k v m → kv = (k, v) ∨ kv ∈ m := by
  intro m
  induction m with
  | nil => intro kv h; simp [dictInsert] at h; simp [h]
  | cons kv0 rest ih =>
    cases kv0 with
    | mk k0 v0 =>
      intro kv h
      by_cases hk : k0 = k
      · simp only [dictInsert, if_pos hk] at h
        rcases List.mem_cons.mp h with h | h
        · left; rw [h, hk]
        · right; simp [h]
      · simp only [dictInsert, if_neg hk] at h
        rcases List.mem_cons.mp h with h | h
        · right; simp [h]
        · rcases ih kv h with h | h
          · left; exact h
          · right; simp [h]

theorem applyUpdates_entry_id (us : List Question) :
    ∀ m, (∀ kv ∈ m, kv.2.id = some kv.1) →
      ∀ kv ∈ applyUpdates m us, kv.2.id = some kv.1 := by
  induction us with
  | nil => intro m h; simpa [applyUpdates] using h
  | cons u rest ih =>
    intro m h
    have step :
        applyUpdates m (u :: rest) =
          applyUpdates
            (match u.id with
             | some i => if m.any (·.1 == i) then dictInsert i u m else m
             | none => m) rest := by
      simp [applyUpdates]
    rw [step]
    match hid : u.id with
    | none => exact ih m h
    | some i =>
      by_cases hc : m.any (·.1 == i) = true
      · simp only [hc, if_true]
        apply ih
        intro kv hkv
        rcases mem_dictInsert i u m kv hkv with hkv | hkv
        · rw [hkv]; exact hid
        · exact h kv hkv
      · simp only [Bool.not_eq_true] at hc
        simp only [hc, if_false]
        exact ih m h

theorem insertPos_of_le (x : Question) :
    ∀ l : List Question, (∀ y ∈ l, posKey x ≤ posKey y) → insertPos x l = x :: l := by
  intro l h
  cases l with
  | nil => rfl
  | cons y ys =>
    have : ¬ posKey y < posKey x := not_lt.mpr (h y (by simp))
    simp [insertPos, this]

theorem sortPos_of_sorted :
    ∀ l : List Question, l.Pairwise (fun a b => posKey a ≤ posKey b) → sortPos l = l := by
  intro l h
  induction l with
  | nil => rfl
  | cons x xs ih =>
    rcases List.pairwise_cons.mp h with ⟨hx, hxs⟩
    rw [sortPos, ih hxs, insertPos_of_le x xs hx]

/-! ### Claims C9, C5, C1 -/

/-- Claim C9: merge is not total over matched patches.  A patch whose id
matches an existing question but which lacks a `position` field makes
`merge_updates` raise (the post-merge re-sort reads `position` from every
entry, including the substituted patch) instead of skipping or repairing
the patch. -/
theorem merge_updates_missing_position_raises :
    merge_updates [exQ1, exQ2]
        (some [{ id := some "q1", status := some "completed", answer := some "ja" }]) =
      .error .missingPosition := by
  rfl

/-- Claim C5 (amended minimally by totality: `merge_updates` can raise, and
then returns no collection): whenever the merge returns a collection, it has
exactly the size of the original — patches with unmatched ids are ignored
and no question is ever inserted. -/
theorem merge_updates_preserves_size (qs : List Question) (updates : Option (List Question))
    (hids : ∀ q ∈ qs, q.id.isSome)
    (hnodup : (qs.map (·.id)).Nodup) :
    ∀ qs2, merge_updates qs updates = .ok qs2 → qs2.length = qs.length := by
  intro qs2 h
  match updates with
  | none =>
    have : qs = qs2 := by simpa [merge_updates] using h
    rw [← this]
  | some us =>
    by_cases hus : us.isEmpty
    · have : qs = qs2 := by simpa [merge_updates, hus] using h
      rw [← this]
    · simp only [merge_updates, hus, Bool.false_eq_true, if_false] at h
      rw [buildQmap_eq qs hids hnodup] at h
      simp only [sortByPosition] at h
      by_cases hall :
          ((applyUpdates (qs.map fun q => (q.id.getD "", q)) us).map (·.2)).all
            (·.position.isSome) = true
      · rw [if_pos hall] at h
        have hq : sortPos ((applyUpdates (qs.map fun q => (q.id.getD "", q)) us).map (·.2)) = qs2 :=
          by exact Except.ok.inj h
        rw [← hq, sortPos_length, List.length_map, applyUpdates_length, List.length_map]
      · rw [if_neg hall] at h
        exact absurd h (by simp)

/-- Witness for C5 at a concrete input: a two-question collection and one
patch whose id matches nothing; the merge succeeds and the size is kept. -/
theorem merge_updates_preserves_size_witness :
    merge_updates [exQ1, exQ2] (some [{ id := some "zz", position := some 9 }]) =
      .ok [exQ1, exQ2] ∧
    (∀ qs2,
      merge_updates [exQ1, exQ2] (some [{ id := some "zz", position := some 9 }]) = .ok qs2 →
        qs2.length = [exQ1, exQ2].length) :=
  ⟨by rfl, merge_updates_preserves_size _ _ (by decide) (by decide)⟩

/-- Counterexample to claim C1 as stated: a patch for the existing id `q1`
carrying position 3 (different from the stored position 1) renumbers and
reorders — afterwards the (id, position) sequence is
`[(q2, 2), (q1, 3)]`, not the original `[(q1, 1), (q2, 2)]`. -/
theorem merge_updates_patch_position_changes_order :
    (merge_updates [exQ1, exQ2] (some [{ id := some "q1", position := some 3 }])).map
        (List.map idPos) =
      .ok [(some "q2", some 2), (some "q1", some 3)] ∧
    ([(some "q2", some 2), (some "q1", some 3)] : List (Option String × Option Int)) ≠
      [exQ1, exQ2].map idPos := by
  exact ⟨by rfl, by decide⟩

/-- Claim C1, amended: for a collection sorted by position with unique,
present ids and positions, and patches each of which carries the same
position value as the question it replaces, merging preserves the sequence
of (id, position) pairs exactly (bodies are replaced in place; nothing is
renumbered or reordered). -/
theorem merge_updates_preserves_id_position_pairs (qs us : List Question)
    (hids : ∀ q ∈ qs, q.id.isSome)
    (hposs : ∀ q ∈ qs, q.position.isSome)
    (hnodup : (qs.map (·.id)).Nodup)
    (hsorted : qs.Pairwise (fun a b => posKey a ≤ posKey b))
    (hpos : ∀ u ∈ us, ∀ q ∈ qs, u.id = q.id → u.position = q.position) :
    (merge_updates qs (some us)).map (List.map idPos) = .ok (qs.map idPos) := by
  by_cases hus : us.isEmpty
  · simp only [merge_updates, hus, if_true]
    rfl
  · simp only [merge_updates, hus, Bool.false_eq_true, if_false]
    rw [buildQmap_eq qs hids hnodup]
    set m0 : List (String × Question) := qs.map fun q => (q.id.getD "", q) with hm0
    have hm0id : ∀ kv ∈ m0, kv.2.id = some kv.1 := by
      intro kv hkv
      obtain ⟨q, hq, rfl⟩ := List.mem_map.mp hkv
      obtain ⟨i, hi⟩ := Option.isSome_iff_exists.mp (hids q hq)
      simp [hi]
    have hup : ∀ u ∈ us, ∀ kv ∈ m0, u.id = some kv.1 → u.position = kv.2.position := by
      intro u hu kv hkv hid
      obtain ⟨q, hq, rfl⟩ := List.mem_map.mp hkv
      apply hpos u hu q hq
      rw [hid]
      obtain ⟨i, hi⟩ := Option.isSome_iff_exists.mp (hids q hq)
      simp [hi]
    have hpairs := applyUpdates_idpos us m0 hup
    have hentry := applyUpdates_entry_id us m0 hm0id
    set m1 := applyUpdates m0 us with hm1
    set vals := m1.map (·.2) with hvals
    -- the stored (key, position) pairs agree with the original collection
    have hm0pairs : m0.map (fun kv => (kv.1, kv.2.position)) =
        qs.map (fun q => (q.id.getD "", q.position)) := by
      rw [hm0, List.map_map]
      rfl
    -- positions of the merged values, in order, equal the original positions
    have hvalpos : vals.map (·.position) = qs.map (·.position) := by
      have h1 : vals.map (·.position) = (m1.map (fun kv => (kv.1, kv.2.position))).map (·.2) := by
        rw [hvals, List.map_map, List.map_map]
        rfl
      rw [h1, hpairs, hm0pairs, List.map_map]
      rfl
    have hallpos : vals.all (·.position.isSome) = true := by
      rw [List.all_eq_true]
      intro v hv
      have : v.position ∈ vals.map (·.position) := List.mem_map_of_mem _ hv
      rw [hvalpos] at this
      obtain ⟨q, hq, hqp⟩ := List.mem_map.mp this
      rw [← hqp]
      exact hposs q hq
    -- the merged values are already sorted by position, so the sort is the identity
    have hposkeys : vals.map posKey = qs.map posKey := by
      have hc := congrArg (List.map (fun p : Option Int => p.getD 0)) hvalpos
      simpa [List.map_map, Function.comp, posKey] using hc
    have hsortedvals : vals.Pairwise (fun a b => posKey a ≤ posKey b) := by
      have h1 : (qs.map posKey).Pairwise (· ≤ ·) := (List.pairwise_map).mpr hsorted
      rw [← hposkeys] at h1
      exact (List.pairwise_map).mp h1
    simp only [sortByPosition, hallpos, if_true]
    rw [sortPos_of_sorted vals hsortedvals]
    have hmapok : Except.map (List.map idPos) (Except.ok vals : Except MergeErr (List Question)) =
        (Except.ok (vals.map idPos) : Except MergeErr (List (Option String × Option Int))) := rfl
    rw [hmapok]
    -- finally, the (id, position) pairs of the merged values equal the originals
    have hid1 : vals.map idPos = m1.map (fun kv => (some kv.1, kv.2.position)) := by
      rw [hvals, List.map_map]
      apply List.map_congr_left
      intro kv hkv
      have := hentry kv hkv
      simp [idPos, this]
    have hid2 : m1.map (fun kv => (some kv.1, kv.2.position)) =
        (m1.map (fun kv => (kv.1, kv.2.position))).map (fun kp => (some kp.1, kp.2)) := by
      rw [List.map_map]
      rfl
    have hid3 : qs.map idPos =
        (qs.map (fun q => (q.id.getD "", q.position))).map (fun kp => (some kp.1, kp.2)) := by
      rw [List.map_map]
      apply List.map_congr_left
      intro q hq
      obtain ⟨i, hi⟩ := Option.isSome_iff_exists.mp (hids q hq)
      simp [idPos, hi]
    rw [hid1, hid2, hpairs, hm0pairs, ← hid3]

/-- Witness for the amended C1: a patch replacing `q1` wholesale while
carrying its original position 1; the (id, position) sequence is unchanged. -/
theorem merge_updates_preserves_id_position_pairs_witness :
    (merge_updates [exQ1, exQ2]
        (some [{ id := some "q1", position := some 1, status := some "completed",
                 answer := some "ja" }])).map (List.map idPos) =
      .ok ([exQ1, exQ2].map idPos) :=
  merge_updates_preserves_id_position_pairs [exQ1, exQ2] _ (by decide) (by decide) (by decide)
    (by decide) (by decide)

/-! ### Claim C6: compute_progress -/

theorem find?_minimal_posKey (p : Question → Bool) :
    ∀ l : List Question, l.Pairwise (fun a b => posKey a ≤ posKey b) →
      ∀ q, l.find? p = some q → ∀ q2 ∈ l, p q2 = true → posKey q ≤ posKey q2 := by
  intro l
  induction l with
  | nil => intro _ q h; simp at h
  | cons x rest ih =>
    intro hsorted q hfind q2 hq2 hp2
    rcases List.pairwise_cons.mp hsorted with ⟨hx, hrest⟩
    by_cases hpx : p x = true
    · rw [List.find?_cons_of_pos _ hpx] at hfind
      have hxq : x = q := by injection hfind
      rcases List.mem_cons.mp hq2 with h | h
      · rw [← hxq, h]
      · rw [← hxq]; exact hx q2 h
    · rw [List.find?_cons_of_neg _ (by simpa using hpx)] at hfind
      rcases List.mem_cons.mp hq2 with h | h
      · rw [h] at hp2; exact absurd hp2 hpx
      · exact ih hrest q hfind q2 h hp2

/-- Claim C6: on a position-sorted collection, `compute_progress` returns
the collection size, the number of `completed` entries, and as
`nextPending` the first entry in position order that is `pending` with no
answer, or `none` when no such entry exists. -/
theorem compute_progress_characterization (qs : List Question)
    (hsorted : qs.Pairwise (fun a b => posKey a ≤ posKey b)) :
    (compute_progress qs).1 = qs.length ∧
    (compute_progress qs).2.1 = (qs.filter (fun q => statusIs q "completed")).length ∧
    ((compute_progress qs).2.2 = none → ∀ q ∈ qs, pendingNoAnswer q = false) ∧
    (∀ q, (compute_progress qs).2.2 = some q →
      q ∈ qs ∧ pendingNoAnswer q = true ∧
        ∀ q2 ∈ qs, pendingNoAnswer q2 = true → posKey q ≤ posKey q2) := by
  refine ⟨rfl, ?_, ?_, ?_⟩
  · simp [compute_progress, List.countP_eq_length_filter]
  · intro hnone q hq
    have := List.find?_eq_none.mp hnone q hq
    simpa using this
  · intro q hfind
    refine ⟨List.mem_of_find?_eq_some hfind, List.find?_some hfind, ?_⟩
    exact find?_minimal_posKey pendingNoAnswer qs hsorted q hfind

/-- Witness for C6 at the spec's concrete example: five questions, two
completed, earliest pending-and-unanswered at index 3; the result is
`(5, 2, question_at_index_3)`, and the characterization holds there. -/
theorem compute_progress_characterization_witness :
    compute_progress exProgQs = (5, 2, some exProgD) ∧
    ((compute_progress exProgQs).1 = exProgQs.length ∧
     (compute_progress exProgQs).2.1 =
       (exProgQs.filter (fun q => statusIs q "completed")).length ∧
     ((compute_progress exProgQs).2.2 = none → ∀ q ∈ exProgQs, pendingNoAnswer q = false) ∧
     (∀ q, (compute_progress exProgQs).2.2 = some q →
       q ∈ exProgQs ∧ pendingNoAnswer q = true ∧
         ∀ q2 ∈ exProgQs, pendingNoAnswer q2 = true → posKey q ≤ posKey q2)) :=
  ⟨by rfl, compute_progress_characterization exProgQs (by decide)⟩

/-! ### Claim C4: the auto-fix validation block -/

theorem fixLoop_fixes_first (userText : String) (osum : Option String) (pid : String) :
    ∀ (qs : List Question) (q : Question), findById qs pid = some q →
      statusIs q "completed" = false →
      findById (fixLoop userText osum pid qs) pid = some (fixQuestion q userText osum) := by
  intro qs
  induction qs with
  | nil => intro q h; simp [findById] at h
  | cons x rest ih =>
    intro q hfind hstat
    by_cases hx : (x.id == some pid) = true
    · rw [findById, if_pos hx] at hfind
      have hxq : x = q := by injection hfind
      subst hxq
      rw [fixLoop]
      simp only [hx, hstat, Bool.not_false, Bool.and_true, if_true]
      have hfid : ((fixQuestion x userText osum).id == some pid) = true := by
        have h1 : (fixQuestion x userText osum).id = x.id := rfl
        rw [h1]
        exact hx
      simp only [findById, hfid, if_true]
    · have hx' : (x.id == some pid) = false := by simpa using hx
      rw [findById, if_neg (by simp [hx'])] at hfind
      rw [fixLoop]
      simp only [hx', Bool.false_and, if_false]
      simp only [findById, hx', Bool.false_eq_true, if_false]
      exact ih q hfind hstat

/-- Claim C4: in a successful turn whose decode produced a JSON object, if
the pending question before the turn and the pending question after the
merge both exist with truthy, distinct ids, and the previously pending
question was not marked completed by the merge, then the handler's auto-fix
block forces its status to `completed` and, if it has no answer, backfills
the answer with the user's raw input (`fixQuestion`). -/
theorem chat_turn_auto_fix (render : Question → List (String × JVal) → Option String)
    (s : AppState) (u t : String) (ofs : List (String × JVal))
    (out : JVal) (hobj : out = .obj ofs)
    (hdec : coerce_json t.data = some out)
    (patches : Option (List Question)) (hpatches : patchesOf out = .ok patches)
    (qs2 : List Question)
    (hmerge : merge_updates (renderBlock render s.question_list out) patches = .ok qs2)
    (p : Question) (hprev : (compute_progress s.question_list).2.2 = some p)
    (pid : String) (hpid : p.id = some pid) (hpidne : pid ≠ "")
    (n : Question) (hnew : (compute_progress qs2).2.2 = some n)
    (nid : String) (hnid : n.id = some nid) (hnidne : nid ≠ "")
    (hne : pid ≠ nid)
    (q : Question) (hfind : findById qs2 pid = some q)
    (hstat : statusIs q "completed" = false) :
    (chatTurn render s u (.raw t)).2 = .ok ∧
    findById (chatTurn render s u (.raw t)).1.question_list pid =
      some (fixQuestion q u (outSummaryOf out)) := by
  have hsend : send_to_gemini render s.question_list (.raw t) =
      .ok (out, renderBlock render s.question_list out) := by
    simp only [send_to_gemini, hdec]
  have hprevId : ((compute_progress s.question_list).2.2).bind (·.id) = some pid := by
    rw [hprev]
    exact hpid
  have hauto : autoFix qs2 (some pid) u (outSummaryOf out) =
      fixLoop u (outSummaryOf out) pid qs2 := by
    rw [autoFix]
    simp only [hnew, hnid]
    have hcond : (truthy (some pid) && truthy (some nid) && (some pid != some nid)) = true := by
      simp [truthy, hpidne, hnidne, hne]
    simp only [hcond, if_true]
  have hturn : chatTurn render s u (.raw t) =
      (⟨s.history ++ [⟨"user", u⟩] ++ [⟨"assistant", answerText out⟩],
        autoFix qs2 (((compute_progress s.question_list).2.2).bind (·.id)) u
          (outSummaryOf out)⟩, .ok) := by
    rw [chatTurn]
    rw [hsend]
    subst hobj
    simp only [hpatches, hmerge]
  rw [hturn]
  refine ⟨rfl, ?_⟩
  simp only [hprevId]
  rw [hauto]
  exact fixLoop_fixes_first u (outSummaryOf out) pid qs2 q hfind hstat

/-- Witness for C4: the model reply `exC4raw` replaces `q1` with a
non-completed, non-pending body, so the pending pointer moves from `q1` to
`q2`; the auto-fix forces `q1` to `completed` and backfills the user's
input as its answer. -/
theorem chat_turn_auto_fix_witness :
    (chatTurn exRender exState "mijn antwoord" (.raw exC4raw)).2 = .ok ∧
    findById (chatTurn exRender exState "mijn antwoord" (.raw exC4raw)).1.question_list "q1" =
      some (fixQuestion exC4patch "mijn antwoord" (outSummaryOf exC4out)) :=
  chat_turn_auto_fix exRender exState "mijn antwoord" exC4raw _ exC4out rfl (by rfl)
    (some [exC4patch]) (by rfl) [exC4patch, exQ2] (by rfl)
    exQ1 (by rfl) "q1" rfl (by decide)
    exQ2 (by rfl) "q2" rfl (by decide) (by decide)
    exC4patch (by rfl) (by rfl)

/-! ### Claim C2: failed turns -/

/-- Claim C2 (amended): when the model transport raises or decoding fails
with a `DecodeError`, the turn is aborted with the question collection
unchanged and no assistant turn appended — but the user's message has
already been appended to the transcript before the model call, so the
transcript is not left exactly as it was. -/
theorem chat_turn_failure_state (render : Question → List (String × JVal) → Option String)
    (s : AppState) (u : String) (mr : ModelResult)
    (hfail : mr = .transportErr ∨ ∃ t e, mr = .raw t ∧ decode_reply t = .error e) :
    chatTurn render s u mr = (⟨s.history ++ [⟨"user", u⟩], s.question_list⟩, .aborted) := by
  rcases hfail with hfail | ⟨t, e, hmr, hdec⟩
  · subst hfail
    rfl
  · subst hmr
    have hco : coerce_json t.data = none := by
      rcases hc : coerce_json t.data with _ | v
      · rfl
      · rw [decode_reply, hc] at hdec
        exact absurd hdec (by simp)
    have hsal : salvage t.data = none := by
      rcases hs : salvage t.data with _ | a
      · rfl
      · rw [decode_reply, hco, hs] at hdec
        exact absurd hdec (by simp)
    rw [chatTurn]
    have hsend : send_to_gemini render s.question_list (.raw t) =
        .error (.decode (mkDecodeErr t.data)) := by
      simp only [send_to_gemini, hco, hsal]
    rw [hsend]

/-- Witness for the amended C2 at a transport failure. -/
theorem chat_turn_failure_state_witness :
    chatTurn exRender exState "Hallo" .transportErr =
      (⟨exState.history ++ [⟨"user", "Hallo"⟩], exState.question_list⟩, .aborted) :=
  chat_turn_failure_state exRender exState "Hallo" .transportErr (Or.inl rfl)

/-- Counterexample to C2 as stated: after a failed turn the transcript is
not left exactly as it was — the user's message was already appended. -/
theorem chat_turn_failure_transcript_changed :
    (chatTurn exRender exState "Hallo" .transportErr).1.history ≠ exState.history := by
  decide

/-! ### Claim C3: total decode failure -/

/-- Claim C3 (amended): for every non-empty input on which none of the four
decode steps succeeds, decoding fails with a `DecodeError` carrying the
input's length and its first and last 200 characters.  (On the empty text,
excluded here, `coerce_json` instead silently returns the empty record —
see the counterexample.) -/
theorem decode_reply_total_failure (raw : String)
    (hne : raw.data ≠ [])
    (h1 : jsonParse (coerceNormalize raw.data) = none)
    (h23 : ∀ core,
      extract_balanced_json (coerceNormalize raw.data) = some core →
        jsonParse core = none ∧ jsonParse (escapeNL core) = none)
    (h4 : salvage raw.data = none) :
    decode_reply raw =
      .error ⟨raw.data.length, ⟨raw.data.take 200⟩, ⟨raw.data.drop (raw.data.length - 200)⟩⟩ := by
  have hco : coerce_json raw.data = none := by
    rw [coerce_json]
    rw [if_neg (by simpa [List.isEmpty_iff] using hne)]
    rcases hx : extract_balanced_json (coerceNormalize raw.data) with _ | core
    · simp only [h1, hx]
    · rcases h23 core hx with ⟨ha, hb⟩
      simp only [h1, hx, ha, hb]
  rw [decode_reply, hco, h4]
  rfl

/-- Witness for the amended C3: plain prose with no braces and no
salvageable answer field. -/
theorem decode_reply_total_failure_witness :
    "hallo".data ≠ [] ∧ decode_reply "hallo" = .error ⟨5, "hallo", "hallo"⟩ := by
  constructor
  · decide
  · have h := decode_reply_total_failure "hallo" (by decide) (by rfl)
      (fun core hc =>
        Option.noConfusion
          ((show extract_balanced_json (coerceNormalize "hallo".data) = none
              from rfl).symm.trans hc))
      (by rfl)
    rw [h]
    exact congrArg Except.error (by decide)

/-- Counterexample to C3 as stated: on the empty text no decode step can
succeed, yet decoding silently returns the empty record `{}` instead of
failing with a `DecodeError` (`coerce_json` short-circuits on falsy input). -/
theorem decode_reply_empty_returns_empty_record :
    jsonParse (coerceNormalize "".data) = none ∧
    extract_balanced_json (coerceNormalize "".data) = none ∧
    salvage "".data = none ∧
    decode_reply "" = .ok (.obj []) :=
  ⟨rfl, rfl, rfl, rfl⟩

/-! ### Claim C10: balanced-brace extraction counts braces inside strings -/

/-- Claim C10: on prose wrapping an object whose string value contains `}`,
the balanced-brace extraction returns a strict prefix of the embedded object
(the extracted core plus `"` and `}` reconstitutes it); that prefix fails to
parse, newline escaping does not change it, and only the regex salvage of
the `answer` field succeeds — the decoded reply is the salvage record. -/
theorem balanced_extraction_counts_braces_in_strings :
    extract_balanced_json (coerceNormalize exC10raw.data) = some exC10core ∧
    exC10obj = exC10core ++ ['"', '}'] ∧
    jsonParse exC10core = none ∧
    jsonParse (escapeNL exC10core) = none ∧
    decode_reply exC10raw =
      .ok (.obj [("answer", .str "ok\x7d"), ("updated_questions", .null)]) :=
  ⟨rfl, rfl, rfl, rfl, rfl⟩

/-! ### Shared text lemmas for the decoder proofs -/

theorem dropWhile_eq_self_of_head (p : Char → Bool) :
    ∀ l : List Char, (∀ c, l.head? = some c → p c = false) → l.dropWhile p = l := by
  intro l h
  cases l with
  | nil => rfl
  | cons a t =>
    rw [List.dropWhile_cons, h a rfl]
    simp

theorem skipWs_cons_of_not (c : Char) (l : List Char) (h : isJsonWs c = false) :
    skipWs (c :: l) = c :: l := by
  rw [skipWs, List.dropWhile_cons, h]
  simp

/-- `str.strip()` is the identity on text that starts and ends with
non-whitespace. -/
theorem pyStrip_eq_self_of_ends (a : Char) (mid : List Char) (b : Char)
    (ha : isPyWs a = false) (hb : isPyWs b = false) :
    pyStrip (a :: (mid ++ [b])) = a :: (mid ++ [b]) := by
  rw [pyStrip]
  rw [dropWhile_eq_self_of_head isPyWs (a :: (mid ++ [b]))
    (fun c hc => by
      rw [List.head?_cons] at hc
      injection hc with hc
      rw [hc] at ha
      exact ha)]
  have hrev : (a :: (mid ++ [b])).reverse = b :: (mid.reverse ++ [a]) := by
    simp
  rw [hrev]
  rw [dropWhile_eq_self_of_head isPyWs (b :: (mid.reverse ++ [a]))
    (fun c hc => by
      rw [List.head?_cons] at hc
      injection hc with hc
      rw [hc] at hb
      exact hb)]
  rw [← hrev, List.reverse_reverse]

theorem normalize_quotes_eq_self (l : List Char) (h : ∀ c ∈ l, plainChar c = true) :
    normalize_quotes l = l := by
  rw [normalize_quotes]
  have hid : ∀ c ∈ l, normalizeChar c = c := by
    intro c hc
    have hp := h c hc
    rw [plainChar] at hp
    simp only [Bool.not_eq_true', Bool.or_eq_false_iff] at hp
    rw [normalizeChar]
    rw [if_neg (by
      rw [Bool.or_eq_true]
      rintro (h1 | h1)
      · rw [hp.1.1.1] at h1; cases h1
      · rw [hp.1.1.2] at h1; cases h1)]
    rw [if_neg (by
      rw [Bool.or_eq_true]
      rintro (h1 | h1)
      · rw [hp.1.2] at h1; cases h1
      · rw [hp.2] at h1; cases h1)]
  calc l.map normalizeChar = l.map id := List.map_congr_left hid
    _ = l := List.map_id l

/-- The BOM strip, strip, and quote normalization are the identity on text
that starts with a plain non-whitespace character and ends with a
non-whitespace character, with only plain characters inside. -/
theorem coerceNormalize_eq_self (a : Char) (mid : List Char) (b : Char)
    (ha1 : (a = '﻿') = False) (ha2 : isPyWs a = false) (hb : isPyWs b = false)
    (hplain : ∀ c ∈ a :: (mid ++ [b]), plainChar c = true) :
    coerceNormalize (a :: (mid ++ [b])) = a :: (mid ++ [b]) := by
  rw [coerceNormalize]
  rw [show stripBOM (a :: (mid ++ [b])) = a :: (mid ++ [b]) from by
    rw [stripBOM]
    apply dropWhile_eq_self_of_head
    intro c hc
    rw [List.head?_cons] at hc
    injection hc with hc
    subst hc
    simpa using ha1]
  rw [pyStrip_eq_self_of_ends a mid b ha2 hb]
  exact normalize_quotes_eq_self _ hplain

theorem escapeNL_cons (c : Char) (l : List Char) :
    escapeNL (c :: l) = escapeNLChar c ++ escapeNL l := rfl

theorem escapeNL_append (l1 l2 : List Char) :
    escapeNL (l1 ++ l2) = escapeNL l1 ++ escapeNL l2 := by
  induction l1 with
  | nil => rfl
  | cons c t ih => rw [List.cons_append, escapeNL_cons, escapeNL_cons, ih, List.append_assoc]

theorem escapeNL_eq_self (l : List Char) (h : ∀ c ∈ l, c ≠ '\r' ∧ c ≠ '\n') :
    escapeNL l = l := by
  induction l with
  | nil => rfl
  | cons c t ih =>
    rcases h c (by simp) with ⟨h1, h2⟩
    rw [escapeNL_cons, escapeNLChar, if_neg h1, if_neg h2]
    rw [ih (fun c hc => h c (by simp [hc]))]
    rfl

/-- A `chunkChar` has none of the string-special roles. -/
theorem chunkChar_spec (c : Char) (h : chunkChar c = true) :
    (c = '"') = False ∧ (c = '\\') = False ∧ (c.toNat < 0x20) = False ∧
    plainChar c = true ∧ (c = '{') = False ∧ (c = '}') = False := by
  rw [chunkChar] at h
  simp only [Bool.and_eq_true, Bool.not_eq_true', decide_eq_false_iff_not] at h
  refine ⟨by simp [h.1.1.1.1.1], by simp [h.1.1.1.1.2], by simp [h.1.1.1.2], h.1.1.2,
    by simp [h.1.2], by simp [h.2]⟩

/-- Scanning a string body over unremarkable characters accumulates them and
continues. -/
theorem parseStringBody_chunk (p : List Char) (hp : ∀ c ∈ p, chunkChar c = true) :
    ∀ s, parseStringBody (p ++ s) =
      (parseStringBody s).map fun q => (p ++ q.1, q.2) := by
  induction p with
  | nil =>
    intro s
    rcases h : parseStringBody s with _ | q <;> simp [h]
  | cons c t ih =>
    intro s
    obtain ⟨h1, h2, h3, _, _, _⟩ := chunkChar_spec c (hp c (by simp))
    rw [List.cons_append]
    rw [parseStringBody]
    rw [if_neg (by simp [h1]), if_neg (by simp [h2]), if_neg (by simp [h3])]
    rw [ih (fun c hc => hp c (by simp [hc]))]
    rcases h : parseStringBody s with _ | q <;> simp [h]

/-- A chunk character is neither carriage return nor newline. -/
theorem chunkChar_no_newline (c : Char) (h : chunkChar c = true) :
    c ≠ '\r' ∧ c ≠ '\n' := by
  obtain ⟨_, _, h3, _, _, _⟩ := chunkChar_spec c h
  constructor
  · intro hc; rw [hc] at h3; simpa using h3
  · intro hc; rw [hc] at h3; simpa using h3

/-- The balanced scan at depth one runs through brace-free text and returns
at the next closing brace, ignoring whatever follows. -/
theorem balancedScan_depth_one (rest : List Char) :
    ∀ mid : List Char, (∀ c ∈ mid, (c = '{') = False ∧ (c = '}') = False) →
      ∀ acc, balancedScan 1 acc (mid ++ '}' :: rest) =
        some (acc.reverse ++ (mid ++ ['}'])) := by
  intro mid
  induction mid with
  | nil =>
    intro _ acc
    rw [List.nil_append]
    rw [balancedScan]
    rw [if_neg (by decide), if_pos (by decide), if_pos (by decide)]
    simp
  | cons m ms ih =>
    intro h acc
    have hm := h m (by simp)
    rw [List.cons_append]
    rw [balancedScan]
    rw [if_neg (by simp [hm.1]), if_neg (by simp [hm.2])]
    rw [ih (fun c hc => h c (by simp [hc])) (m :: acc)]
    simp

/-- `_extract_balanced_json` returns the whole text when it is a single
object with brace-free interior. -/
theorem extract_whole_object (inner : List Char)
    (h : ∀ c ∈ inner, (c = '{') = False ∧ (c = '}') = False) :
    extract_balanced_json ('{' :: (inner ++ ['}'])) = some ('{' :: (inner ++ ['}'])) := by
  have hd : ('{' :: (inner ++ ['}'])).dropWhile (· ≠ '{') = '{' :: (inner ++ ['}']) := by
    apply dropWhile_eq_self_of_head
    intro c hc
    rw [List.head?_cons] at hc
    injection hc with hc
    subst hc
    decide
  rw [extract_balanced_json]
  rw [hd]
  show balancedScan 0 [] ('{' :: (inner ++ ['}'])) = some ('{' :: (inner ++ ['}']))
  rw [balancedScan]
  rw [if_pos (by decide)]
  have : inner ++ ['}'] = inner ++ '}' :: ([] : List Char) := rfl
  rw [this, balancedScan_depth_one [] inner h ['{']]
  simp

/-! ### Claim C8: raw newline inside a string value -/

theorem parseStringBody_closeQuote (r : List Char) : parseStringBody ('"' :: r) = some ([], r) := by
  rw [parseStringBody]
  rw [if_pos rfl]

theorem parseStringBody_newline (r : List Char) : parseStringBody ('\n' :: r) = none := by
  rw [parseStringBody]
  rw [if_neg (by decide), if_neg (by decide), if_pos (by decide)]

theorem parseStringBody_escape_n (r : List Char) :
    parseStringBody ('\\' :: 'n' :: r) =
      (parseStringBody r).map (fun q => ('\n' :: q.1, q.2)) := by
  rw [parseStringBody]
  rw [if_neg (by decide), if_pos rfl]
  rw [parseEscape]
  rw [if_neg (by decide)]
  rw [show escCharOf 'n' = some '\n' from rfl]
  rcases h : parseStringBody r with _ | q <;> simp [h]

/-- Direct parse of the object with a raw newline byte inside the string
value fails at every fuel: strict string scanning rejects the control
character. -/
theorem c8_direct_fails (A B : List Char) (hA : ∀ c ∈ A, chunkChar c = true) :
    ∀ fuel, parseValue fuel
      ('{' :: '"' :: 'a' :: 'n' :: 's' :: 'w' :: 'e' :: 'r' :: '"' :: ':' :: '"' ::
        (A ++ '\n' :: (B ++ ['"', '}']))) = none := by
  intro fuel
  match fuel with
  | 0 => rfl
  | f1 + 1 =>
    rw [parseValue]
    rw [if_neg (by decide), if_pos (by decide)]
    match f1 with
    | 0 => rfl
    | f2 + 1 =>
      rw [parseObjBody]
      simp only [skipWs_cons_of_not '"' _ (by decide)]
      rw [if_neg (by decide)]
      match f2 with
      | 0 => rfl
      | f3 + 1 =>
        rw [parseMembers]
        simp only [skipWs_cons_of_not '"' _ (by decide)]
        rw [if_true]
        rw [show ('a' :: 'n' :: 's' :: 'w' :: 'e' :: 'r' :: '"' :: ':' :: '"' ::
            (A ++ '\n' :: (B ++ ['"', '}']))) =
          ['a', 'n', 's', 'w', 'e', 'r'] ++ ('"' :: ':' :: '"' ::
            (A ++ '\n' :: (B ++ ['"', '}']))) from rfl]
        rw [parseStringBody_chunk ['a', 'n', 's', 'w', 'e', 'r'] (by decide)]
        simp only [parseStringBody_closeQuote, Option.map_some']
        simp only [skipWs_cons_of_not ':' _ (by decide)]
        rw [if_true]
        simp only [skipWs_cons_of_not '"' _ (by decide)]
        have hv : parseValue f3 ('"' :: (A ++ '\n' :: (B ++ ['"', '}']))) = none := by
          match f3 with
          | 0 => rfl
          | f5 + 1 =>
            rw [parseValue]
            rw [if_pos rfl]
            rw [parseStringBody_chunk A hA]
            simp only [parseStringBody_newline, Option.map_none']
        simp only [hv]

/-- After newline escaping, the two-character `\n` escape parses and the
decoded `answer` carries a real embedded newline. -/
theorem c8_escaped_parses (A B : List Char)
    (hA : ∀ c ∈ A, chunkChar c = true) (hB : ∀ c ∈ B, chunkChar c = true) :
    ∀ f, parseValue (f + 4)
      ('{' :: '"' :: 'a' :: 'n' :: 's' :: 'w' :: 'e' :: 'r' :: '"' :: ':' :: '"' ::
        (A ++ '\\' :: 'n' :: (B ++ ['"', '}']))) =
      some (.obj [("answer", .str ⟨A ++ '\n' :: B⟩)], []) := by
  intro f
  rw [show f + 4 = (f + 3) + 1 from rfl]
  rw [parseValue]
  rw [if_neg (by decide), if_pos (by decide)]
  rw [show f + 3 = (f + 2) + 1 from rfl]
  rw [parseObjBody]
  simp only [skipWs_cons_of_not '"' _ (by decide)]
  rw [if_neg (by decide)]
  rw [show f + 2 = (f + 1) + 1 from rfl]
  rw [parseMembers]
  simp only [skipWs_cons_of_not '"' _ (by decide)]
  rw [if_true]
  rw [show ('a' :: 'n' :: 's' :: 'w' :: 'e' :: 'r' :: '"' :: ':' :: '"' ::
      (A ++ '\\' :: 'n' :: (B ++ ['"', '}']))) =
    ['a', 'n', 's', 'w', 'e', 'r'] ++ ('"' :: ':' :: '"' ::
      (A ++ '\\' :: 'n' :: (B ++ ['"', '}']))) from rfl]
  rw [parseStringBody_chunk ['a', 'n', 's', 'w', 'e', 'r'] (by decide)]
  simp only [parseStringBody_closeQuote, Option.map_some']
  simp only [skipWs_cons_of_not ':' _ (by decide)]
  rw [if_true]
  simp only [skipWs_cons_of_not '"' _ (by decide)]
  rw [parseValue]
  rw [if_pos rfl]
  rw [parseStringBody_chunk A hA]
  rw [parseStringBody_escape_n]
  rw [parseStringBody_chunk B hB]
  simp only [parseStringBody_closeQuote, Option.map_some']
  simp only [skipWs_cons_of_not '}' _ (by decide)]
  rw [if_neg (by decide), if_true]
  simp [jObjOf, jInsert]

/-- Claim C8: for input text that is the JSON object with a literal newline
byte inside the `answer` string value — `{"answer":"A⏎B"}` with `A`, `B`
ranging over unremarkable characters — decoding succeeds and yields
`answer = A ++ "\n" ++ B` as a single string with an embedded line break:
the direct parse rejects the raw control character, the balanced extraction
returns the whole object, and the newline-escaping fallback replaces the
literal newline with its two-character escaped form and re-parses once. -/
theorem decode_reply_escapes_raw_newlines (A B : String)
    (hA : A.data.all chunkChar = true) (hB : B.data.all chunkChar = true) :
    decode_reply ⟨'{' :: '"' :: 'a' :: 'n' :: 's' :: 'w' :: 'e' :: 'r' :: '"' :: ':' :: '"' ::
        (A.data ++ '\n' :: (B.data ++ ['"', '}']))⟩ =
      .ok (.obj [("answer", .str ⟨A.data ++ '\n' :: B.data⟩)]) := by
  have hAm : ∀ c ∈ A.data, chunkChar c = true := List.all_eq_true.mp hA
  have hBm : ∀ c ∈ B.data, chunkChar c = true := List.all_eq_true.mp hB
  set l : List Char := '{' :: '"' :: 'a' :: 'n' :: 's' :: 'w' :: 'e' :: 'r' :: '"' :: ':' :: '"' ::
      (A.data ++ '\n' :: (B.data ++ ['"', '}'])) with hl
  have hshape : l = '{' ::
      (('"' :: 'a' :: 'n' :: 's' :: 'w' :: 'e' :: 'r' :: '"' :: ':' :: '"' ::
        (A.data ++ '\n' :: (B.data ++ ['"']))) ++ ['}']) := by
    rw [hl]
    simp [List.append_assoc]
  have hplain : ∀ c ∈ l, plainChar c = true := by
    intro c hc
    rw [hl] at hc
    rw [show ('{' :: '"' :: 'a' :: 'n' :: 's' :: 'w' :: 'e' :: 'r' :: '"' :: ':' :: '"' ::
        (A.data ++ '\n' :: (B.data ++ ['"', '}']))) =
      ['{', '"', 'a', 'n', 's', 'w', 'e', 'r', '"', ':', '"'] ++
        (A.data ++ '\n' :: (B.data ++ ['"', '}'])) from rfl] at hc
    rcases List.mem_append.mp hc with h | h
    · fin_cases h <;> decide
    · rcases List.mem_append.mp h with h | h
      · exact (chunkChar_spec c (hAm c h)).2.2.2.1
      · rcases List.mem_cons.mp h with rfl | h
        · decide
        · rcases List.mem_append.mp h with h | h
          · exact (chunkChar_spec c (hBm c h)).2.2.2.1
          · fin_cases h <;> decide
  have hnorm : coerceNormalize l = l := by
    rw [hshape]
    apply coerceNormalize_eq_self '{' _ '}' (by simp) (by decide) (by decide)
    rw [← hshape]
    exact hplain
  have hfail : jsonParse l = none := by
    rw [jsonParse]
    rw [show skipWs l = l from by rw [hl]; exact skipWs_cons_of_not '{' _ (by decide)]
    rw [hl]
    simp only [c8_direct_fails A.data B.data hAm]
  have hbraces : ∀ c ∈ ('"' :: 'a' :: 'n' :: 's' :: 'w' :: 'e' :: 'r' :: '"' :: ':' :: '"' ::
      (A.data ++ '\n' :: (B.data ++ ['"']))), (c = '{') = False ∧ (c = '}') = False := by
    intro c hc
    rw [show ('"' :: 'a' :: 'n' :: 's' :: 'w' :: 'e' :: 'r' :: '"' :: ':' :: '"' ::
        (A.data ++ '\n' :: (B.data ++ ['"']))) =
      ['"', 'a', 'n', 's', 'w', 'e', 'r', '"', ':', '"'] ++
        (A.data ++ '\n' :: (B.data ++ ['"'])) from rfl] at hc
    rcases List.mem_append.mp hc with h | h
    · fin_cases h <;> exact ⟨by simp, by simp⟩
    · rcases List.mem_append.mp h with h | h
      · obtain ⟨_, _, _, _, h5, h6⟩ := chunkChar_spec c (hAm c h)
        exact ⟨h5, h6⟩
      · rcases List.mem_cons.mp h with rfl | h
        · exact ⟨by simp, by simp⟩
        · rcases List.mem_append.mp h with h | h
          · obtain ⟨_, _, _, _, h5, h6⟩ := chunkChar_spec c (hBm c h)
            exact ⟨h5, h6⟩
          · fin_cases h <;> exact ⟨by simp, by simp⟩
  have hex : extract_balanced_json l = some l := by
    rw [hshape]
    exact extract_whole_object _ hbraces
  have hAnl : ∀ c ∈ A.data, c ≠ '\r' ∧ c ≠ '\n' :=
    fun c hc => chunkChar_no_newline c (hAm c hc)
  have hBnl : ∀ c ∈ B.data, c ≠ '\r' ∧ c ≠ '\n' :=
    fun c hc => chunkChar_no_newline c (hBm c hc)
  have hesc : escapeNL l =
      '{' :: '"' :: 'a' :: 'n' :: 's' :: 'w' :: 'e' :: 'r' :: '"' :: ':' :: '"' ::
        (A.data ++ '\\' :: 'n' :: (B.data ++ ['"', '}'])) := by
    rw [hl]
    rw [show ('{' :: '"' :: 'a' :: 'n' :: 's' :: 'w' :: 'e' :: 'r' :: '"' :: ':' :: '"' ::
        (A.data ++ '\n' :: (B.data ++ ['"', '}']))) =
      ['{', '"', 'a', 'n', 's', 'w', 'e', 'r', '"', ':', '"'] ++
        (A.data ++ '\n' :: (B.data ++ ['"', '}'])) from rfl]
    rw [escapeNL_append, escapeNL_append]
    rw [escapeNL_eq_self ['{', '"', 'a', 'n', 's', 'w', 'e', 'r', '"', ':', '"'] (by decide)]
    rw [escapeNL_eq_self A.data hAnl]
    rw [escapeNL_cons]
    rw [escapeNL_append]
    rw [escapeNL_eq_self B.data hBnl]
    rw [escapeNL_eq_self ['"', '}'] (by decide)]
    rfl
  have hparse2 : jsonParse ('{' :: '"' :: 'a' :: 'n' :: 's' :: 'w' :: 'e' :: 'r' :: '"' :: ':' ::
      '"' :: (A.data ++ '\\' :: 'n' :: (B.data ++ ['"', '}']))) =
      some (.obj [("answer", .str ⟨A.data ++ '\n' :: B.data⟩)]) := by
    rw [jsonParse]
    rw [show skipWs ('{' :: '"' :: 'a' :: 'n' :: 's' :: 'w' :: 'e' :: 'r' :: '"' :: ':' ::
        '"' :: (A.data ++ '\\' :: 'n' :: (B.data ++ ['"', '}']))) =
      '{' :: '"' :: 'a' :: 'n' :: 's' :: 'w' :: 'e' :: 'r' :: '"' :: ':' ::
        '"' :: (A.data ++ '\\' :: 'n' :: (B.data ++ ['"', '}'])) from
      skipWs_cons_of_not '{' _ (by decide)]
    obtain ⟨k, hk⟩ : ∃ k,
        2 * ('{' :: '"' :: 'a' :: 'n' :: 's' :: 'w' :: 'e' :: 'r' :: '"' :: ':' ::
          '"' :: (A.data ++ '\\' :: 'n' :: (B.data ++ ['"', '}']))).length + 2 = k + 4 := by
      refine ⟨2 * (A.data ++ '\\' :: 'n' :: (B.data ++ ['"', '}'])).length + 20, ?_⟩
      simp [List.length_cons]
      omega
    rw [hk]
    simp only [c8_escaped_parses A.data B.data hAm hBm k]
    rfl
  have hco : coerce_json l = some (.obj [("answer", .str ⟨A.data ++ '\n' :: B.data⟩)]) := by
    rw [coerce_json]
    rw [if_neg (by rw [hl]; simp)]
    simp only [hnorm, hfail, hex, hesc, hparse2]
  show decode_reply ⟨l⟩ = _
  rw [decode_reply]
  simp only [show (String.mk l).data = l from rfl, hco]

/-- Witness for C8 at the spec's example `{"answer":"line1⏎line2"}`. -/
theorem decode_reply_escapes_raw_newlines_witness :
    "line1".data.all chunkChar = true ∧
    decode_reply "\x7b\"answer\":\"line1\nline2\"\x7d" =
      .ok (.obj [("answer", .str "line1\nline2")]) :=
  ⟨by decide, decode_reply_escapes_raw_newlines "line1" "line2" (by decide) (by decide)⟩

/-! ### Claim C7: round trip of a well-formed Decoded Reply

First the number token round trip. -/

theorem digitChar_isDigit (k : Nat) (h : k < 10) : isDigit (Nat.digitChar k) = true := by
  interval_cases k <;> decide

theorem digitChar_val (k : Nat) (h : k < 10) : (Nat.digitChar k).toNat - '0'.toNat = k := by
  interval_cases k <;> decide

theorem digitChar_ne_zero (k : Nat) (h1 : 0 < k) (h2 : k < 10) :
    (Nat.digitChar k = '0') = False := by
  interval_cases k <;> decide

theorem takeDigits_all (ds : List Char) (h : ∀ c ∈ ds, isDigit c = true) :
    ∀ s, takeDigits (ds ++ s) = (ds ++ (takeDigits s).1, (takeDigits s).2) := by
  induction ds with
  | nil => intro s; rfl
  | cons c t ih =>
    intro s
    rw [List.cons_append, takeDigits]
    rw [if_pos (h c (by simp))]
    rw [ih (fun c hc => h c (by simp [hc])) s]
    rfl

theorem takeDigits_stop (s : List Char)
    (h : ∀ c, s.head? = some c → isDigit c = false) :
    takeDigits s = ([], s) := by
  cases s with
  | nil => rfl
  | cons c t =>
    rw [takeDigits, if_neg (by simp [h c rfl])]

theorem digitsVal_append_one (ds : List Char) (d : Char) :
    digitsVal (ds ++ [d]) = 10 * digitsVal ds + (d.toNat - '0'.toNat) := by
  rw [digitsVal, digitsVal, List.foldl_append]
  rfl

/-- The characteristic facts of `natCharsAux` with enough fuel: the digits
of `n`, all decimal, leading digit nonzero for nonzero `n`, and the value
folds back to `n`. -/
theorem natCharsAux_spec : ∀ fuel n, n < fuel →
    (∀ c ∈ natCharsAux fuel n, isDigit c = true) ∧
    natCharsAux fuel n ≠ [] ∧
    digitsVal (natCharsAux fuel n) = n ∧
    (0 < n → ∀ c, (natCharsAux fuel n).head? = some c → (c = '0') = False) := by
  intro fuel
  induction fuel with
  | zero => intro n h; omega
  | succ f ih =>
    intro n h
    by_cases h10 : n < 10
    · rw [natCharsAux, if_pos h10]
      refine ⟨?_, by simp, ?_, ?_⟩
      · intro c hc
        rcases List.mem_singleton.mp hc with rfl
        exact digitChar_isDigit n h10
      · rw [show [Nat.digitChar n] = [] ++ [Nat.digitChar n] from rfl, digitsVal_append_one]
        rw [digitChar_val n h10]
        simp [digitsVal]
      · intro hn c hc
        rw [List.head?_cons] at hc
        injection hc with hc
        rw [← hc]
        exact digitChar_ne_zero n hn h10
    · rw [natCharsAux, if_neg h10]
      have hdiv : n / 10 < f := by omega
      obtain ⟨ha, hb, hc, hd⟩ := ih (n / 10) hdiv
      refine ⟨?_, by simp [hb], ?_, ?_⟩
      · intro c hmem
        rcases List.mem_append.mp hmem with hm | hm
        · exact ha c hm
        · rcases List.mem_singleton.mp hm with rfl
          exact digitChar_isDigit (n % 10) (Nat.mod_lt n (by omega))
      · rw [digitsVal_append_one, hc, digitChar_val (n % 10) (Nat.mod_lt n (by omega))]
        omega
      · intro _ c hhead
        obtain ⟨c0, t0, he⟩ := List.exists_cons_of_ne_nil hb
        rw [he, List.cons_append, List.head?_cons] at hhead
        injection hhead with hhead
        rw [← hhead]
        exact hd (by omega) c0 (by rw [he, List.head?_cons])

theorem natChars_spec (n : Nat) :
    (∀ c ∈ natChars n, isDigit c = true) ∧
    natChars n ≠ [] ∧
    digitsVal (natChars n) = n ∧
    (0 < n → ∀ c, (natChars n).head? = some c → (c = '0') = False) :=
  natCharsAux_spec (n + 1) n (by omega)

theorem ne_of_isDigit (c x : Char) (h : isDigit c = true) (hx : isDigit x = false) :
    (c = x) = False := by
  simp only [eq_iff_iff, iff_false]
  intro he
  rw [he, hx] at h
  cases h

/-- Parsing the canonical digits of `n` (with a boundary character next)
returns exactly `n`. -/
theorem parseIntPart_natChars (n : Nat) (rest : List Char)
    (hrest : ∀ c, rest.head? = some c → isDigit c = false) :
    parseIntPart (natChars n ++ rest) = some (natChars n, rest) := by
  obtain ⟨hdig, hne, hval, hlead⟩ := natChars_spec n
  obtain ⟨c0, t0, he⟩ := List.exists_cons_of_ne_nil hne
  by_cases hz : n = 0
  · subst hz
    rw [show natChars 0 = ['0'] from rfl]
    rw [List.cons_append, parseIntPart, if_pos rfl]
    rfl
  · rw [he, List.cons_append, parseIntPart]
    have hc0 : isDigit c0 = true := hdig c0 (by rw [he]; simp)
    rw [if_neg (by
      have := hlead (by omega) c0 (by rw [he, List.head?_cons])
      simp [this])]
    rw [if_pos hc0]
    have ht0 : ∀ c ∈ t0, isDigit c = true := fun c hc => hdig c (by rw [he]; simp [hc])
    rw [takeDigits_all t0 ht0 rest, takeDigits_stop rest hrest]
    simp

/-- A number token consisting only of an integer part parses as `.num`. -/
theorem parseNumber_intChars (n : Int) (rest : List Char)
    (hrest : ∀ c, rest.head? = some c →
      isDigit c = false ∧ (c = '.') = False ∧ (c = 'e') = False ∧ (c = 'E') = False) :
    parseNumber (intChars n ++ rest) = some (.num n, rest) := by
  have hfe : ∀ m : Nat, parseIntPart (natChars m ++ rest) = some (natChars m, rest) :=
    fun m => parseIntPart_natChars m rest (fun c hc => (hrest c hc).1)
  have hfrac : parseFrac rest = ([], rest) := by
    cases rest with
    | nil => rfl
    | cons c t =>
      rw [parseFrac, if_neg (by simp [(hrest c rfl).2.1])]
  have hexp : parseExp rest = ([], rest) := by
    cases rest with
    | nil => rfl
    | cons c t =>
      have h1 := (hrest c rfl).2.2.1
      have h2 := (hrest c rfl).2.2.2
      rw [parseExp.eq_def]
      simp [h1, h2]
  by_cases hs : n < 0
  · -- negative
    rw [intChars, if_pos hs]
    obtain ⟨_, _, hval, _⟩ := natChars_spec (-n).toNat
    rw [List.cons_append, parseNumber, if_pos rfl]
    rw [hfe (-n).toNat]
    simp only [Option.map_some']
    simp [hfrac, hexp, hval]
    omega
  · -- nonneg
    rw [intChars, if_neg hs]
    obtain ⟨hdig, hne, hval, _⟩ := natChars_spec n.toNat
    obtain ⟨c0, t0, he⟩ := List.exists_cons_of_ne_nil hne
    rw [he, List.cons_append, parseNumber]
    have hc0 : isDigit c0 = true := hdig c0 (by rw [he]; simp)
    rw [if_neg (by simp [ne_of_isDigit c0 '-' hc0 (by decide)])]
    rw [← List.cons_append, ← he, hfe n.toNat]
    simp only [Option.map_some']
    simp [hfrac, hexp, hval]
    omega

/-! String literal round trip. -/

theorem hexVal_hexDigit (k : Nat) (h : k < 16) : hexVal (hexDigit k) = some k := by
  interval_cases k <;> decide

theorem isHighSurrogate_small (n : Nat) (h : n < 0xD800) : isHighSurrogate n = false := by
  simp only [isHighSurrogate, Bool.and_eq_false_imp, decide_eq_true_eq, decide_eq_false_iff_not]
  omega

/-- Evaluation of `parseU` when the four hex digits denote a non-surrogate
code point. -/
theorem parseU_notHigh (h1 h2 h3 h4 : Char) (tail : List Char) (n : Nat)
    (hx : hex4 h1 h2 h3 h4 = some n) (hs : isHighSurrogate n = false) :
    parseU (h1 :: h2 :: h3 :: h4 :: tail) =
      mapCons (Char.ofNat n) (parseStringBody tail) := by
  rw [parseU, hx]
  cases hp : parseStringBody tail with
  | none => simp [hs, hp]
  | some p =>
    obtain ⟨cs, r⟩ := p
    simp [hs, hp]

/-- Scanning a `json.dumps`-escaped string body recovers the original
characters exactly, leaving the remainder after the closing quote. -/
theorem parseStringBody_escFold : ∀ (l rest : List Char),
    parseStringBody (l.foldr (fun c r => escStrChar c ++ r) [] ++ '"' :: rest) =
      some (l, rest) := by
  intro l
  induction l with
  | nil => intro rest; rfl
  | cons c t ih =>
    intro rest
    rw [List.foldr_cons, List.append_assoc]
    by_cases h1 : c = '"'
    · subst h1
      rw [show escStrChar '"' = ['\\', '"'] from rfl]
      simp [parseStringBody, parseEscape, escCharOf, ih rest]
    · by_cases h2 : c = '\\'
      · subst h2
        rw [show escStrChar '\\' = ['\\', '\\'] from rfl]
        simp [parseStringBody, parseEscape, escCharOf, ih rest]
      · by_cases h3 : c = '\n'
        · subst h3
          rw [show escStrChar '\n' = ['\\', 'n'] from rfl]
          simp [parseStringBody, parseEscape, escCharOf, ih rest]
        · by_cases h4 : c = '\r'
          · subst h4
            rw [show escStrChar '\r' = ['\\', 'r'] from rfl]
            simp [parseStringBody, parseEscape, escCharOf, ih rest]
          · by_cases h5 : c = '\t'
            · subst h5
              rw [show escStrChar '\t' = ['\\', 't'] from rfl]
              simp [parseStringBody, parseEscape, escCharOf, ih rest]
            · by_cases h6 : c = '\x08'
              · subst h6
                rw [show escStrChar '\x08' = ['\\', 'b'] from rfl]
                simp [parseStringBody, parseEscape, escCharOf, ih rest]
              · by_cases h7 : c = '\x0c'
                · subst h7
                  rw [show escStrChar '\x0c' = ['\\', 'f'] from rfl]
                  simp [parseStringBody, parseEscape, escCharOf, ih rest]
                · by_cases h8 : c.toNat < 0x20
                  · rw [escStrChar, if_neg h1, if_neg h2, if_neg h3, if_neg h4, if_neg h5,
                        if_neg h6, if_neg h7, if_pos h8]
                    have e0 : hexVal '0' = some 0 := by decide
                    have e1 := hexVal_hexDigit (c.toNat / 16) (by omega)
                    have e2 := hexVal_hexDigit (c.toNat % 16) (by omega)
                    have hx : hex4 '0' '0' (hexDigit (c.toNat / 16)) (hexDigit (c.toNat % 16)) =
                        some c.toNat := by
                      simp [hex4, e0, e1, e2]
                      omega
                    have hsur : isHighSurrogate c.toNat = false :=
                      isHighSurrogate_small c.toNat (by omega)
                    simp only [List.cons_append, List.nil_append]
                    rw [parseStringBody]
                    rw [if_neg (by decide), if_pos rfl]
                    rw [parseEscape, if_pos rfl]
                    rw [parseU_notHigh '0' '0' (hexDigit (c.toNat / 16))
                          (hexDigit (c.toNat % 16)) _ c.toNat hx hsur]
                    rw [ih rest]
                    simp [mapCons, Char.ofNat_toNat]
                  · rw [escStrChar, if_neg h1, if_neg h2, if_neg h3, if_neg h4, if_neg h5,
                        if_neg h6, if_neg h7, if_neg h8]
                    simp only [List.cons_append, List.nil_append]
                    rw [parseStringBody, if_neg h1, if_neg h2, if_neg h8, ih rest]

/-- The same round trip phrased on `escString`. -/
theorem parseStringBody_escString (s : String) (rest : List Char) :
    parseStringBody (escString s ++ '"' :: rest) = some (s.data, rest) :=
  parseStringBody_escFold s.data rest

/-! Heads of serialized values, whitespace, the `dict` rebuild, and fuel. -/

theorem skipWs_cons_ws (c : Char) (l : List Char) (h : isJsonWs c = true) :
    skipWs (c :: l) = skipWs l := by
  rw [skipWs, List.dropWhile_cons, h]
  rfl

theorem isJsonWs_of_isDigit (c : Char) (h : isDigit c = true) : isJsonWs c = false := by
  by_cases hs : isJsonWs c = true
  · exfalso
    simp only [isJsonWs, Bool.or_eq_true, decide_eq_true_eq] at hs
    rcases hs with ((rfl | rfl) | rfl) | rfl <;> exact absurd h (by decide)
  · simpa using hs

/-- A well-formed serialized value starts with a character that is neither
JSON whitespace nor a closing bracket. -/
theorem jserialize_head (v : JVal) (hwf : wfJ v = true) :
    ∃ c t, jserialize v = c :: t ∧ isJsonWs c = false ∧ (c = ']') = False := by
  cases v with
  | null => exact ⟨'n', _, rfl, by decide, by decide⟩
  | bool b => cases b with
    | false => exact ⟨'f', _, rfl, by decide, by decide⟩
    | true => exact ⟨'t', _, rfl, by decide, by decide⟩
  | num n =>
    by_cases hs : n < 0
    · have he : jserialize (.num n) = '-' :: natChars (-n).toNat := by
        rw [show jserialize (.num n) = intChars n from rfl, intChars, if_pos hs]
      exact ⟨'-', _, he, by decide, by decide⟩
    · obtain ⟨hdig, hne, _, _⟩ := natChars_spec n.toNat
      obtain ⟨c0, t0, he⟩ := List.exists_cons_of_ne_nil hne
      have hc : isDigit c0 = true := hdig c0 (by rw [he]; simp)
      refine ⟨c0, t0, ?_, isJsonWs_of_isDigit c0 hc, ne_of_isDigit c0 ']' hc (by decide)⟩
      rw [show jserialize (.num n) = intChars n from rfl, intChars, if_neg hs, he]
  | numLit l => exact absurd hwf (by simp [wfJ])
  | str s => exact ⟨'"', _, rfl, by decide, by decide⟩
  | arr xs => exact ⟨'[', _, rfl, by decide, by decide⟩
  | obj fs => exact ⟨'{', _, rfl, by decide, by decide⟩

theorem needV_pos (v : JVal) : 1 ≤ needV v := by
  cases v <;> simp [needV] <;> omega

/-- Inserting a fresh key appends it. -/
theorem jInsert_fresh (k : String) (v : JVal) :
    ∀ acc, (∀ kv ∈ acc, ¬ kv.1 = k) → jInsert k v acc = acc ++ [(k, v)] := by
  intro acc
  induction acc with
  | nil => intro _; rfl
  | cons kv rest ih =>
    intro h
    obtain ⟨k0, v0⟩ := kv
    rw [jInsert, if_neg (h (k0, v0) (by simp))]
    rw [ih (fun kv hm => h kv (by simp [hm]))]
    rfl

theorem jObjOf_aux : ∀ (pairs acc : List (String × JVal)),
    keysNodup (pairs.map (·.1)) = true →
    (∀ kv ∈ acc, ∀ kv2 ∈ pairs, ¬ kv.1 = kv2.1) →
    pairs.foldl (fun m kv => jInsert kv.1 kv.2 m) acc = acc ++ pairs := by
  intro pairs
  induction pairs with
  | nil => intro acc _ _; simp
  | cons kv rest ih =>
    intro acc h hdisj
    rw [List.map_cons, keysNodup, Bool.and_eq_true] at h
    rw [List.foldl_cons]
    rw [jInsert_fresh kv.1 kv.2 acc (fun kv2 hm => hdisj kv2 hm kv (by simp))]
    rw [ih (acc ++ [kv]) h.2]
    · simp
    · intro kv1 hm1 kv2 hm2
      rcases List.mem_append.mp hm1 with hm | hm
      · exact hdisj kv1 hm kv2 (by simp [hm2])
      · have hk : kv1 = kv := List.mem_singleton.mp hm
        intro he
        have hcont : (rest.map (·.1)).contains kv.1 = true := by
          simp only [List.contains_eq_any_beq, List.any_eq_true]
          refine ⟨kv2.1, List.mem_map_of_mem _ hm2, ?_⟩
          rw [← hk]
          simp [he]
        rw [hcont] at h
        simpa using h.1

/-- `dict(pairs)` is the identity on a member list with distinct keys. -/
theorem jObjOf_nodup (pairs : List (String × JVal))
    (h : keysNodup (pairs.map (·.1)) = true) : jObjOf pairs = pairs := by
  rw [jObjOf]
  simpa using jObjOf_aux pairs [] h (by simp)

/-- The declared fuel requirement is bounded by twice the serialized
length, so `jsonParse`'s fuel always suffices. -/
theorem needV_le_jserialize : ∀ N v, sizeOf v ≤ N → wfJ v = true →
    needV v ≤ 2 * (jserialize v).length := by
  intro N
  induction N with
  | zero =>
    intro v h _
    have h1 : 1 ≤ sizeOf v := by cases v <;> simp
    omega
  | succ N ih =>
    have hlistE : ∀ xs : List JVal, sizeOf xs ≤ N + 1 → wfElems xs = true →
        needElems xs ≤ 2 * (serElems xs).length + 1 := by
      intro xs
      induction xs with
      | nil => intro _ _; simp [needElems]
      | cons x r ihr =>
        intro hsz hwf
        rw [wfElems, Bool.and_eq_true] at hwf
        have hszx : sizeOf x ≤ N := by
          simp at hsz
          omega
        have hszr : sizeOf r ≤ N + 1 := by
          simp at hsz
          omega
        have h1 := ih x hszx hwf.1
        have h2 := ihr hszr hwf.2
        rw [needElems]
        cases r with
        | nil =>
          rw [show serElems [x] = jserialize x from rfl]
          simp [needElems]
          omega
        | cons y rr =>
          rw [show serElems (x :: y :: rr) = jserialize x ++ ',' :: ' ' :: serElems (y :: rr)
                from rfl]
          simp
          omega
    have hlistM : ∀ fs : List (String × JVal), sizeOf fs ≤ N + 1 → wfFields fs = true →
        needMembers fs ≤ 2 * (serFields fs).length + 1 := by
      intro fs
      induction fs with
      | nil => intro _ _; simp [needMembers]
      | cons kv r ihr =>
        intro hsz hwf
        rw [wfFields, Bool.and_eq_true, Bool.and_eq_true] at hwf
        have hszx : sizeOf kv.2 ≤ N := by
          obtain ⟨a, b⟩ := kv
          simp at hsz
          simp
          omega
        have hszr : sizeOf r ≤ N + 1 := by
          simp at hsz
          omega
        have h1 := ih kv.2 hszx hwf.1.2
        have h2 := ihr hszr hwf.2
        rw [needMembers]
        cases r with
        | nil =>
          rw [show serFields [kv] =
                '"' :: (escString kv.1 ++ '"' :: ':' :: ' ' :: jserialize kv.2) from rfl]
          simp [needMembers]
          omega
        | cons kv2 rr =>
          rw [show serFields (kv :: kv2 :: rr) =
                ('"' :: (escString kv.1 ++ '"' :: ':' :: ' ' :: jserialize kv.2)) ++
                  ',' :: ' ' :: serFields (kv2 :: rr) from rfl]
          simp
          omega
    intro v hN hwf
    cases v with
    | null => decide
    | bool b => cases b <;> decide
    | num n =>
      rw [show needV (.num n) = 1 from rfl]
      have h1 : (jserialize (.num n)).length ≥ 1 := by
        obtain ⟨c, t, he, -, -⟩ := jserialize_head (.num n) rfl
        rw [he]
        simp
      omega
    | numLit l => exact absurd hwf (by simp [wfJ])
    | str s =>
      rw [show needV (.str s) = 1 from rfl]
      rw [show jserialize (.str s) = '"' :: (escString s ++ ['"']) from rfl]
      simp
      omega
    | arr xs =>
      rw [show needV (.arr xs) = 2 + needElems xs from rfl]
      rw [show jserialize (.arr xs) = '[' :: (serElems xs ++ [']']) from rfl]
      have hwfe : wfElems xs = true := by
        rw [show wfJ (.arr xs) = wfElems xs from rfl] at hwf
        exact hwf
      have hsz : sizeOf xs ≤ N + 1 := by
        simp at hN
        omega
      have hx := hlistE xs hsz hwfe
      simp
      omega
    | obj fs =>
      rw [show needV (.obj fs) = 2 + needMembers fs from rfl]
      rw [show jserialize (.obj fs) = '{' :: (serFields fs ++ ['}']) from rfl]
      have hwff : wfFields fs = true := by
        rw [show wfJ (.obj fs) = (keysNodup (fs.map (·.1)) && wfFields fs) from rfl,
            Bool.and_eq_true] at hwf
        exact hwf.2
      have hsz : sizeOf fs ≤ N + 1 := by
        simp at hN
        omega
      have hx := hlistM fs hsz hwff
      simp
      omega

/-! The parser recovers every serialized well-formed value. -/

theorem numBoundary_nil : numBoundary [] := by
  intro c hc
  cases hc

theorem numBoundary_cons (c : Char) (l : List Char)
    (h : isDigit c = false ∧ (c = '.') = False ∧ (c = 'e') = False ∧ (c = 'E') = False) :
    numBoundary (c :: l) := by
  intro c0 hc0
  rw [List.head?_cons] at hc0
  injection hc0 with hc0
  subst hc0
  exact h

theorem skipWs_jser (v : JVal) (hwf : wfJ v = true) (t : List Char) :
    skipWs (jserialize v ++ t) = jserialize v ++ t := by
  obtain ⟨c, t0, he, hws, -⟩ := jserialize_head v hwf
  rw [he, List.cons_append, skipWs_cons_of_not c _ hws]

theorem serElems_cons_ex (y : JVal) (ys : List JVal) :
    ∃ T, serElems (y :: ys) = jserialize y ++ T := by
  cases ys with
  | nil => exact ⟨[], by rw [show serElems [y] = jserialize y from rfl]; simp⟩
  | cons z zs => exact ⟨',' :: ' ' :: serElems (z :: zs), rfl⟩

theorem skipWs_serElems (y : JVal) (ys : List JVal) (hwf : wfJ y = true) (R : List Char) :
    skipWs (serElems (y :: ys) ++ R) = serElems (y :: ys) ++ R := by
  obtain ⟨T, hT⟩ := serElems_cons_ex y ys
  rw [hT, List.append_assoc, skipWs_jser y hwf, ← List.append_assoc]

theorem serFields_cons_head (kv : String × JVal) (fs : List (String × JVal)) :
    ∃ T, serFields (kv :: fs) = '"' :: T := by
  cases fs with
  | nil => exact ⟨_, rfl⟩
  | cons kv2 rr => exact ⟨_, rfl⟩

theorem skipWs_serFields (kv : String × JVal) (fs : List (String × JVal)) (R : List Char) :
    skipWs (serFields (kv :: fs) ++ R) = serFields (kv :: fs) ++ R := by
  obtain ⟨T, hT⟩ := serFields_cons_head kv fs
  rw [hT, List.cons_append, skipWs_cons_of_not '"' _ (by decide)]

theorem parseValue_jser : ∀ N v, sizeOf v ≤ N → wfJ v = true →
    ∀ fuel rest, needV v ≤ fuel → numBoundary rest →
    parseValue fuel (jserialize v ++ rest) = some (v, rest) := by
  intro N
  induction N with
  | zero =>
    intro v h _
    have h1 : 1 ≤ sizeOf v := by cases v <;> simp
    exact absurd h (by omega)
  | succ N ih =>
    have elemsLoop : ∀ (xs : List JVal) (x : JVal),
        (∀ y ∈ x :: xs, sizeOf y ≤ N) → wfElems (x :: xs) = true →
        ∀ fuel acc s rest, needElems (x :: xs) ≤ fuel →
        skipWs s = serElems (x :: xs) ++ ']' :: rest →
        parseElems fuel s acc = some (.arr (acc.reverse ++ x :: xs), rest) := by
      intro xs
      induction xs with
      | nil =>
        intro x hsz hwf fuel acc s rest hfuel hs
        have hwfx : wfJ x = true := by
          rw [wfElems, Bool.and_eq_true] at hwf
          exact hwf.1
        cases fuel with
        | zero =>
          rw [needElems, needElems] at hfuel
          omega
        | succ f =>
          have hx := ih x (hsz x (by simp)) hwfx f (']' :: rest)
            (by rw [needElems, needElems] at hfuel; omega)
            (numBoundary_cons ']' rest ⟨by decide, by decide, by decide, by decide⟩)
          rw [parseElems, hs, show serElems [x] = jserialize x from rfl]
          simp only [hx]
          simp [skipWs_cons_of_not ']' rest (by decide)]
      | cons y ys ihr =>
        intro x hsz hwf fuel acc s rest hfuel hs
        have hwfx : wfJ x = true := by
          rw [wfElems, Bool.and_eq_true] at hwf
          exact hwf.1
        have hwfy : wfJ y = true := by
          rw [wfElems, Bool.and_eq_true, wfElems, Bool.and_eq_true] at hwf
          exact hwf.2.1
        have hwftail : wfElems (y :: ys) = true := by
          rw [wfElems, Bool.and_eq_true] at hwf
          exact hwf.2
        cases fuel with
        | zero =>
          rw [needElems] at hfuel
          have := needV_pos x
          omega
        | succ f =>
          have hx := ih x (hsz x (by simp)) hwfx f
            (',' :: ' ' :: (serElems (y :: ys) ++ ']' :: rest))
            (by rw [needElems] at hfuel; omega)
            (numBoundary_cons ',' _ ⟨by decide, by decide, by decide, by decide⟩)
          rw [parseElems, hs,
              show serElems (x :: y :: ys) =
                jserialize x ++ ',' :: ' ' :: serElems (y :: ys) from rfl,
              List.append_assoc]
          simp only [List.cons_append]
          simp only [hx]
          simp only [skipWs_cons_of_not ',' _ (by decide)]
          rw [if_true]
          have hskip : skipWs (' ' :: (serElems (y :: ys) ++ ']' :: rest)) =
              serElems (y :: ys) ++ ']' :: rest := by
            rw [skipWs_cons_ws ' ' _ (by decide), skipWs_serElems y ys hwfy]
          rw [ihr y (fun z hz => hsz z (List.mem_cons_of_mem x hz)) hwftail f (x :: acc)
              (' ' :: (serElems (y :: ys) ++ ']' :: rest)) rest
              (by rw [needElems] at hfuel; have := needV_pos x; omega) hskip]
          simp
    have membersLoop : ∀ (fs : List (String × JVal)) (kv : String × JVal),
        (∀ p ∈ kv :: fs, sizeOf p.2 ≤ N) → wfFields (kv :: fs) = true →
        ∀ fuel acc s rest, needMembers (kv :: fs) ≤ fuel →
        skipWs s = serFields (kv :: fs) ++ '}' :: rest →
        parseMembers fuel s acc =
          some (.obj (jObjOf (acc.reverse ++ kv :: fs)), rest) := by
      intro fs
      induction fs with
      | nil =>
        intro kv hsz hwf fuel acc s rest hfuel hs
        have hwfv : wfJ kv.2 = true := by
          rw [wfFields, Bool.and_eq_true, Bool.and_eq_true] at hwf
          exact hwf.1.2
        cases fuel with
        | zero =>
          rw [needMembers, needMembers] at hfuel
          omega
        | succ f =>
          have hx := ih kv.2 (hsz kv (by simp)) hwfv f ('}' :: rest)
            (by rw [needMembers, needMembers] at hfuel; omega)
            (numBoundary_cons '}' rest ⟨by decide, by decide, by decide, by decide⟩)
          rw [parseMembers, hs,
              show serFields [kv] =
                '"' :: (escString kv.1 ++ '"' :: ':' :: ' ' :: jserialize kv.2) from rfl]
          simp only [List.cons_append, List.append_assoc]
          rw [if_true]
          simp only [parseStringBody_escString]
          simp only [skipWs_cons_of_not ':' _ (by decide)]
          rw [if_true]
          have hskip : skipWs (' ' :: (jserialize kv.2 ++ '}' :: rest)) =
              jserialize kv.2 ++ '}' :: rest := by
            rw [skipWs_cons_ws ' ' _ (by decide), skipWs_jser kv.2 hwfv]
          rw [hskip]
          simp only [hx]
          simp only [skipWs_cons_of_not '}' _ (by decide)]
          rw [if_neg (by decide), if_true]
          have hkv : ((⟨kv.1.data⟩ : String), kv.2) = kv := rfl
          rw [hkv]
          simp
      | cons kv2 rr ihr =>
        intro kv hsz hwf fuel acc s rest hfuel hs
        have hwfv : wfJ kv.2 = true := by
          rw [wfFields, Bool.and_eq_true, Bool.and_eq_true] at hwf
          exact hwf.1.2
        have hwftail : wfFields (kv2 :: rr) = true := by
          rw [wfFields, Bool.and_eq_true] at hwf
          exact hwf.2
        cases fuel with
        | zero =>
          rw [needMembers] at hfuel
          have := needV_pos kv.2
          omega
        | succ f =>
          have hx := ih kv.2 (hsz kv (by simp)) hwfv f
            (',' :: ' ' :: (serFields (kv2 :: rr) ++ '}' :: rest))
            (by rw [needMembers] at hfuel; omega)
            (numBoundary_cons ',' _ ⟨by decide, by decide, by decide, by decide⟩)
          rw [parseMembers, hs,
              show serFields (kv :: kv2 :: rr) =
                ('"' :: (escString kv.1 ++ '"' :: ':' :: ' ' :: jserialize kv.2)) ++
                  ',' :: ' ' :: serFields (kv2 :: rr) from rfl]
          simp only [List.cons_append, List.append_assoc]
          rw [if_true]
          simp only [parseStringBody_escString]
          simp only [skipWs_cons_of_not ':' _ (by decide)]
          rw [if_true]
          have hskip : skipWs (' ' :: (jserialize kv.2 ++
              ',' :: ' ' :: (serFields (kv2 :: rr) ++ '}' :: rest))) =
              jserialize kv.2 ++ ',' :: ' ' :: (serFields (kv2 :: rr) ++ '}' :: rest) := by
            rw [skipWs_cons_ws ' ' _ (by decide), skipWs_jser kv.2 hwfv]
          rw [hskip]
          simp only [hx]
          simp only [skipWs_cons_of_not ',' _ (by decide)]
          rw [if_true]
          have hskip2 : skipWs (' ' :: (serFields (kv2 :: rr) ++ '}' :: rest)) =
              serFields (kv2 :: rr) ++ '}' :: rest := by
            rw [skipWs_cons_ws ' ' _ (by decide), skipWs_serFields kv2 rr]
          have hkv : ((⟨kv.1.data⟩ : String), kv.2) = kv := rfl
          rw [hkv]
          rw [ihr kv2 (fun p hp => hsz p (List.mem_cons_of_mem kv hp)) hwftail f
              (kv :: acc) (' ' :: (serFields (kv2 :: rr) ++ '}' :: rest)) rest
              (by rw [needMembers] at hfuel; have := needV_pos kv.2; omega) hskip2]
          simp
    intro v hN hwf
    cases v with
    | null =>
      intro fuel rest hfuel hrest
      cases fuel with
      | zero => exact absurd hfuel (by rw [show needV .null = 1 from rfl]; omega)
      | succ f =>
        rw [show jserialize .null ++ rest = 'n' :: 'u' :: 'l' :: 'l' :: rest from rfl]
        simp only [parseValue]
        rw [if_neg (by decide), if_neg (by decide), if_neg (by decide), if_true]
        rfl
    | bool b =>
      intro fuel rest hfuel hrest
      cases fuel with
      | zero => exact absurd hfuel (by rw [show needV (.bool b) = 1 from rfl]; omega)
      | succ f =>
        cases b with
        | true =>
          rw [show jserialize (.bool true) ++ rest =
                't' :: 'r' :: 'u' :: 'e' :: rest from rfl]
          simp only [parseValue]
          rw [if_neg (by decide), if_neg (by decide), if_neg (by decide),
              if_neg (by decide), if_true]
          rfl
        | false =>
          rw [show jserialize (.bool false) ++ rest =
                'f' :: 'a' :: 'l' :: 's' :: 'e' :: rest from rfl]
          simp only [parseValue]
          rw [if_neg (by decide), if_neg (by decide), if_neg (by decide),
              if_neg (by decide), if_neg (by decide), if_true]
          rfl
    | num n =>
      intro fuel rest hfuel hrest
      cases fuel with
      | zero => exact absurd hfuel (by rw [show needV (.num n) = 1 from rfl]; omega)
      | succ f =>
        have hp : parseNumber (intChars n ++ rest) = some (.num n, rest) :=
          parseNumber_intChars n rest hrest
        rw [show jserialize (.num n) = intChars n from rfl]
        by_cases hs : n < 0
        · have he : intChars n = '-' :: natChars (-n).toNat := by
            rw [intChars, if_pos hs]
          rw [he, List.cons_append]
          simp only [parseValue]
          rw [if_neg (by decide), if_neg (by decide), if_neg (by decide),
              if_neg (by decide), if_neg (by decide), if_neg (by decide)]
          rw [← List.cons_append, ← he]
          simp only [hp]
        · have hnn : intChars n = natChars n.toNat := by
            rw [intChars, if_neg hs]
          obtain ⟨hdig, hne, -, -⟩ := natChars_spec n.toNat
          obtain ⟨c0, t0, he⟩ := List.exists_cons_of_ne_nil hne
          have hc0 : isDigit c0 = true := hdig c0 (by rw [he]; simp)
          rw [hnn, he, List.cons_append]
          simp only [parseValue]
          rw [if_neg (by simp [ne_of_isDigit c0 '"' hc0 (by decide)]),
              if_neg (by simp [ne_of_isDigit c0 '\x7b' hc0 (by decide)]),
              if_neg (by simp [ne_of_isDigit c0 '[' hc0 (by decide)]),
              if_neg (by simp [ne_of_isDigit c0 'n' hc0 (by decide)]),
              if_neg (by simp [ne_of_isDigit c0 't' hc0 (by decide)]),
              if_neg (by simp [ne_of_isDigit c0 'f' hc0 (by decide)])]
          rw [← List.cons_append, ← he, ← hnn]
          simp only [hp]
    | numLit l =>
      intro fuel rest hfuel hrest
      exact absurd hwf (by simp [wfJ])
    | str s =>
      intro fuel rest hfuel hrest
      cases fuel with
      | zero => exact absurd hfuel (by rw [show needV (.str s) = 1 from rfl]; omega)
      | succ f =>
        rw [show jserialize (.str s) = '"' :: (escString s ++ ['"']) from rfl,
            List.cons_append, List.append_assoc, List.singleton_append]
        simp only [parseValue]
        simp only [parseStringBody_escString]
        rfl
    | arr xs =>
      intro fuel rest hfuel hrest
      have hwfe : wfElems xs = true := by
        rw [show wfJ (.arr xs) = wfElems xs from rfl] at hwf
        exact hwf
      cases fuel with
      | zero =>
        exact absurd hfuel
          (by rw [show needV (.arr xs) = 2 + needElems xs from rfl]; omega)
      | succ f =>
        rw [show jserialize (.arr xs) = '[' :: (serElems xs ++ [']']) from rfl,
            List.cons_append]
        simp only [parseValue]
        rw [if_neg (by decide), if_neg (by decide)]
        cases f with
        | zero =>
          exact absurd hfuel
            (by rw [show needV (.arr xs) = 2 + needElems xs from rfl]; omega)
        | succ g =>
          cases xs with
          | nil =>
            rw [show serElems [] = ([] : List Char) from rfl, List.nil_append,
                List.singleton_append]
            rw [parseArrBody]
            simp only [skipWs_cons_of_not ']' _ (by decide)]
            simp
          | cons x xs' =>
            have hwfx : wfJ x = true := by
              rw [wfElems, Bool.and_eq_true] at hwfe
              exact hwfe.1
            rw [parseArrBody]
            rw [List.append_assoc, List.singleton_append]
            obtain ⟨T, hT⟩ := serElems_cons_ex x xs'
            obtain ⟨c0, t0, he, hws, hket⟩ := jserialize_head x hwfx
            have hskipA : skipWs (serElems (x :: xs') ++ ']' :: rest) =
                c0 :: (t0 ++ (T ++ ']' :: rest)) := by
              rw [skipWs_serElems x xs' hwfx, hT, he]
              simp
            simp only [hskipA]
            rw [if_neg (show ¬(c0 = ']') from fun h => hket ▸ h)]
            have hsz : ∀ y ∈ x :: xs', sizeOf y ≤ N := by
              intro y hy
              have h1 := List.sizeOf_lt_of_mem hy
              have h2 : sizeOf (JVal.arr (x :: xs')) = 1 + sizeOf (x :: xs') := by simp
              omega
            have hskipB : skipWs (c0 :: (t0 ++ (T ++ ']' :: rest))) =
                serElems (x :: xs') ++ ']' :: rest := by
              rw [skipWs_cons_of_not c0 _ hws, hT, he]
              simp
            rw [elemsLoop xs' x hsz hwfe g [] (c0 :: (t0 ++ (T ++ ']' :: rest))) rest
                (by rw [show needV (.arr (x :: xs')) = 2 + needElems (x :: xs') from rfl]
                      at hfuel
                    omega)
                hskipB]
            simp
    | obj fs =>
      intro fuel rest hfuel hrest
      have hwff : wfFields fs = true := by
        rw [show wfJ (.obj fs) = (keysNodup (fs.map (·.1)) && wfFields fs) from rfl,
            Bool.and_eq_true] at hwf
        exact hwf.2
      have hnodup : keysNodup (fs.map (·.1)) = true := by
        rw [show wfJ (.obj fs) = (keysNodup (fs.map (·.1)) && wfFields fs) from rfl,
            Bool.and_eq_true] at hwf
        exact hwf.1
      cases fuel with
      | zero =>
        exact absurd hfuel
          (by rw [show needV (.obj fs) = 2 + needMembers fs from rfl]; omega)
      | succ f =>
        rw [show jserialize (.obj fs) = '{' :: (serFields fs ++ ['}']) from rfl,
            List.cons_append]
        simp only [parseValue]
        rw [if_neg (by decide)]
        cases f with
        | zero =>
          exact absurd hfuel
            (by rw [show needV (.obj fs) = 2 + needMembers fs from rfl]; omega)
        | succ g =>
          cases fs with
          | nil =>
            rw [show serFields [] = ([] : List Char) from rfl, List.nil_append,
                List.singleton_append]
            rw [parseObjBody]
            simp only [skipWs_cons_of_not '}' _ (by decide)]
            simp
          | cons kv fs' =>
            rw [parseObjBody]
            rw [List.append_assoc, List.singleton_append]
            obtain ⟨T, hT⟩ := serFields_cons_head kv fs'
            have hskipA : skipWs (serFields (kv :: fs') ++ '}' :: rest) =
                '"' :: (T ++ '}' :: rest) := by
              rw [skipWs_serFields kv fs', hT]
              simp
            simp only [hskipA]
            rw [if_neg (show ¬('"' = '}') from by decide)]
            have hsz : ∀ p ∈ kv :: fs', sizeOf p.2 ≤ N := by
              intro p hp
              have h1 := List.sizeOf_lt_of_mem hp
              have h2 : sizeOf (JVal.obj (kv :: fs')) = 1 + sizeOf (kv :: fs') := by simp
              have h3 : sizeOf p = 1 + sizeOf p.1 + sizeOf p.2 := by
                obtain ⟨a, b⟩ := p
                simp
              omega
            have hskipB : skipWs ('"' :: (T ++ '}' :: rest)) =
                serFields (kv :: fs') ++ '}' :: rest := by
              rw [skipWs_cons_of_not '"' _ (by decide), hT]
              simp
            rw [membersLoop fs' kv hsz hwff g [] ('"' :: (T ++ '}' :: rest)) rest
                (by rw [show needV (.obj (kv :: fs')) = 2 + needMembers (kv :: fs')
                      from rfl] at hfuel
                    omega)
                hskipB]
            rw [show (([] : List (String × JVal)).reverse ++ kv :: fs') = kv :: fs'
                  from by simp]
            rw [jObjOf_nodup (kv :: fs') hnodup, if_true]


/-- `json.loads` round trip on a serialized well-formed value. -/
theorem jsonParse_jserialize (v : JVal) (hwf : wfJ v = true) :
    jsonParse (jserialize v) = some v := by
  obtain ⟨c, t, he, hws, -⟩ := jserialize_head v hwf
  have h2 := parseValue_jser (sizeOf v) v le_rfl hwf (2 * (jserialize v).length + 2) []
    (by have := needV_le_jserialize (sizeOf v) v le_rfl hwf; omega) numBoundary_nil
  rw [List.append_nil] at h2
  rw [jsonParse]
  have h1 : skipWs (jserialize v) = jserialize v := by
    rw [he, skipWs_cons_of_not c _ hws]
  rw [h1]
  simp only [h2]
  rfl

/-! Serialized well-formed values contain no typographic quotes, so the
normalization in `coerce_json` leaves them untouched. -/

theorem hexDigit_plain (k : Nat) (h : k < 16) : plainChar (hexDigit k) = true := by
  interval_cases k <;> decide

theorem plain_of_isDigit (c : Char) (h : isDigit c = true) : plainChar c = true := by
  simp [plainChar, ne_of_isDigit c '“' h (by decide), ne_of_isDigit c '”' h (by decide),
        ne_of_isDigit c '‘' h (by decide), ne_of_isDigit c '’' h (by decide)]

theorem escStrChar_plain (c : Char) (h : plainChar c = true) :
    ∀ x ∈ escStrChar c, plainChar x = true := by
  intro x hx
  rw [escStrChar] at hx
  split_ifs at hx with h1 h2 h3 h4 h5 h6 h7 h8
  · simp at hx; rcases hx with rfl | rfl <;> decide
  · simp at hx; rcases hx with rfl | rfl <;> decide
  · simp at hx; rcases hx with rfl | rfl <;> decide
  · simp at hx; rcases hx with rfl | rfl <;> decide
  · simp at hx; rcases hx with rfl | rfl <;> decide
  · simp at hx; rcases hx with rfl | rfl <;> decide
  · simp at hx; rcases hx with rfl | rfl <;> decide
  · simp at hx
    rcases hx with rfl | rfl | rfl | rfl | rfl
    · decide
    · decide
    · decide
    · exact hexDigit_plain _ (by omega)
    · exact hexDigit_plain _ (by omega)
  · simp at hx
    subst hx
    exact h

theorem escFold_plain : ∀ (l : List Char), (∀ c ∈ l, plainChar c = true) →
    ∀ x ∈ l.foldr (fun c r => escStrChar c ++ r) [], plainChar x = true := by
  intro l
  induction l with
  | nil => intro _ x hx; cases hx
  | cons c t ih =>
    intro h x hx
    rw [List.foldr_cons] at hx
    rcases List.mem_append.mp hx with hm | hm
    · exact escStrChar_plain c (h c (by simp)) x hm
    · exact ih (fun d hd => h d (by simp [hd])) x hm

theorem jserialize_plain : ∀ N v, sizeOf v ≤ N → wfJ v = true →
    ∀ x ∈ jserialize v, plainChar x = true := by
  intro N
  induction N with
  | zero =>
    intro v h _
    have h1 : 1 ≤ sizeOf v := by cases v <;> simp
    exact absurd h (by omega)
  | succ N ih =>
    have hlistE : ∀ xs : List JVal, sizeOf xs ≤ N + 1 → wfElems xs = true →
        ∀ x ∈ serElems xs, plainChar x = true := by
      intro xs
      induction xs with
      | nil => intro _ _ x hx; cases hx
      | cons y r ihr =>
        intro hsz hwf x hx
        rw [wfElems, Bool.and_eq_true] at hwf
        have hy : ∀ x ∈ jserialize y, plainChar x = true :=
          ih y (by simp at hsz; omega) hwf.1
        cases r with
        | nil =>
          rw [show serElems [y] = jserialize y from rfl] at hx
          exact hy x hx
        | cons z zs =>
          rw [show serElems (y :: z :: zs) =
                jserialize y ++ ',' :: ' ' :: serElems (z :: zs) from rfl] at hx
          rcases List.mem_append.mp hx with hm | hm
          · exact hy x hm
          · rcases List.mem_cons.mp hm with rfl | hm2
            · decide
            · rcases List.mem_cons.mp hm2 with rfl | hm3
              · decide
              · exact ihr (by simp at hsz ⊢; omega) hwf.2 x hm3
    have hlistM : ∀ fs : List (String × JVal), sizeOf fs ≤ N + 1 → wfFields fs = true →
        ∀ x ∈ serFields fs, plainChar x = true := by
      intro fs
      induction fs with
      | nil => intro _ _ x hx; cases hx
      | cons kv r ihr =>
        intro hsz hwf x hx
        rw [wfFields, Bool.and_eq_true, Bool.and_eq_true] at hwf
        have hk : ∀ x ∈ escString kv.1, plainChar x = true := by
          have hp : ∀ c ∈ kv.1.data, plainChar c = true := by
            have h0 := hwf.1.1
            rw [plainString, List.all_eq_true] at h0
            intro c hc
            simpa using h0 c hc
          exact escFold_plain kv.1.data hp
        have hv : ∀ x ∈ jserialize kv.2, plainChar x = true := by
          refine ih kv.2 ?_ hwf.1.2
          obtain ⟨a, b⟩ := kv
          simp at hsz ⊢
          omega
        have hone : ∀ x ∈ '"' :: (escString kv.1 ++ '"' :: ':' :: ' ' :: jserialize kv.2),
            plainChar x = true := by
          intro x hx
          rcases List.mem_cons.mp hx with rfl | hx2
          · decide
          · rcases List.mem_append.mp hx2 with hm | hm
            · exact hk x hm
            · rcases List.mem_cons.mp hm with rfl | hm2
              · decide
              · rcases List.mem_cons.mp hm2 with rfl | hm3
                · decide
                · rcases List.mem_cons.mp hm3 with rfl | hm4
                  · decide
                  · exact hv x hm4
        cases r with
        | nil =>
          rw [show serFields [kv] = '"' :: (escString kv.1 ++ '"' :: ':' :: ' ' ::
                jserialize kv.2) from rfl] at hx
          exact hone x hx
        | cons kv2 rr =>
          rw [show serFields (kv :: kv2 :: rr) = ('"' :: (escString kv.1 ++ '"' :: ':' ::
                ' ' :: jserialize kv.2)) ++ ',' :: ' ' :: serFields (kv2 :: rr)
                from rfl] at hx
          rcases List.mem_append.mp hx with hm | hm
          · exact hone x hm
          · rcases List.mem_cons.mp hm with rfl | hm2
            · decide
            · rcases List.mem_cons.mp hm2 with rfl | hm3
              · decide
              · exact ihr (by simp at hsz ⊢; omega) hwf.2 x hm3
    intro v hN hwf
    cases v with
    | null => decide
    | bool b => cases b <;> decide
    | num n =>
      intro x hx
      rw [show jserialize (.num n) = intChars n from rfl, intChars] at hx
      by_cases hs : n < 0
      · rw [if_pos hs] at hx
        rcases List.mem_cons.mp hx with rfl | hm
        · decide
        · obtain ⟨hdig, -, -, -⟩ := natChars_spec (-n).toNat
          exact plain_of_isDigit x (hdig x hm)
      · rw [if_neg hs] at hx
        obtain ⟨hdig, -, -, -⟩ := natChars_spec n.toNat
        exact plain_of_isDigit x (hdig x hx)
    | numLit l => exact absurd hwf (by simp [wfJ])
    | str s =>
      intro x hx
      rw [show jserialize (.str s) = '"' :: (escString s ++ ['"']) from rfl] at hx
      have hp : ∀ c ∈ s.data, plainChar c = true := by
        rw [show wfJ (.str s) = plainString s from rfl, plainString,
            List.all_eq_true] at hwf
        intro c hc
        simpa using hwf c hc
      rcases List.mem_cons.mp hx with rfl | hx2
      · decide
      · rcases List.mem_append.mp hx2 with hm | hm
        · exact escFold_plain s.data hp x hm
        · rcases List.mem_singleton.mp hm with rfl
          decide
    | arr xs =>
      intro x hx
      rw [show jserialize (.arr xs) = '[' :: (serElems xs ++ [']']) from rfl] at hx
      have hwfe : wfElems xs = true := by
        rw [show wfJ (.arr xs) = wfElems xs from rfl] at hwf
        exact hwf
      rcases List.mem_cons.mp hx with rfl | hx2
      · decide
      · rcases List.mem_append.mp hx2 with hm | hm
        · exact hlistE xs (by simp at hN; omega) hwfe x hm
        · rcases List.mem_singleton.mp hm with rfl
          decide
    | obj fs =>
      intro x hx
      rw [show jserialize (.obj fs) = '{' :: (serFields fs ++ ['}']) from rfl] at hx
      have hwff : wfFields fs = true := by
        rw [show wfJ (.obj fs) = (keysNodup (fs.map (·.1)) && wfFields fs) from rfl,
            Bool.and_eq_true] at hwf
        exact hwf.2
      rcases List.mem_cons.mp hx with rfl | hx2
      · decide
      · rcases List.mem_append.mp hx2 with hm | hm
        · exact hlistM fs (by simp at hN; omega) hwff x hm
        · rcases List.mem_singleton.mp hm with rfl
          decide

/-- The whole decode ladder succeeds at its first step on a serialized
well-formed object. -/
theorem coerce_json_jser_obj (fs : List (String × JVal)) (hwf : wfJ (.obj fs) = true) :
    coerce_json (jserialize (.obj fs)) = some (.obj fs) := by
  have hplain : ∀ x ∈ jserialize (.obj fs), plainChar x = true :=
    jserialize_plain (sizeOf (JVal.obj fs)) _ le_rfl hwf
  have hnorm : coerceNormalize (jserialize (.obj fs)) = jserialize (.obj fs) := by
    rw [show jserialize (.obj fs) = '{' :: (serFields fs ++ ['}']) from rfl]
    refine coerceNormalize_eq_self '{' (serFields fs) '}' (by decide) (by decide)
      (by decide) ?_
    intro c hc
    refine hplain c ?_
    rw [show jserialize (.obj fs) = '{' :: (serFields fs ++ ['}']) from rfl]
    exact hc
  have hne : (jserialize (.obj fs)).isEmpty = false := by
    rw [show jserialize (.obj fs) = '{' :: (serFields fs ++ ['}']) from rfl]
    rfl
  rw [coerce_json, if_neg (by simp [hne])]
  rw [hnorm]
  simp only [jsonParse_jserialize (.obj fs) hwf]


/-- C7 (corrected): for every well-formed Decoded Reply — object keys
distinct and every string field free of the four typographic quote
characters — decoding the serialization returns exactly the reply's record,
succeeding through the direct-parse step.  As stated the claim fails: a
typographic apostrophe inside a field is rewritten by `_normalize_quotes`
before parsing, altering the field's content (see the counterexample). -/
theorem decode_reply_round_trip (r : Reply) (hwf : wfReply r = true) :
    decode_reply (serializeReply r) = .ok (replyToJVal r) := by
  obtain ⟨fs, hfs⟩ : ∃ fs, replyToJVal r = .obj fs := ⟨_, rfl⟩
  have hwf2 : wfJ (.obj fs) = true := by
    rw [wfReply] at hwf
    rw [hfs] at hwf
    exact hwf
  rw [decode_reply]
  rw [show (serializeReply r).data = jserialize (replyToJVal r) from rfl]
  rw [hfs]
  simp only [coerce_json_jser_obj fs hwf2]

/-- Witness for C7 at a concrete reply with two patches and a summary. -/
theorem decode_reply_round_trip_witness :
    wfReply exC7r = true ∧
    decode_reply (serializeReply exC7r) = .ok (replyToJVal exC7r) :=
  ⟨by decide, decode_reply_round_trip exC7r (by decide)⟩

/-- The C7 claim as stated fails: the serialized reply whose answer is a
typographic apostrophe decodes to a record holding the ASCII apostrophe
instead, because `_normalize_quotes` rewrites the character before the
direct parse. -/
theorem decode_reply_mangles_typographic_quote :
    decode_reply (serializeReply exC7bad) =
      .ok (.obj [("answer", .str ⟨[Char.ofNat 39]⟩)]) ∧
    (JVal.obj [("answer", .str ⟨[Char.ofNat 39]⟩)]) ≠ replyToJVal exC7bad :=
  ⟨by rfl, fun h => absurd (congrArg answerChars h) (by decide)⟩

end OPG
